import Mathlib

/-!
Verification of the escalation engine of `mem-escalate-lib.py`.

This file shallowly embeds the engine's three cores — the checkpointed
state machine (`update_array_round`, `mark_completed`, `mark_failed`,
`update_escalation` and the `modify_checkpoint` read-modify-write wrapper),
the outcome classifier (`analyze_job`'s per-task decision), and the
index-set codec (`compress_indices`) — as pure Lean functions, and proves
the spec's testable properties about them.

Modelling conventions:
* Python `str` is embedded as Lean `String` (a wrapper around `List Char`);
  the helper functions that the source uses (`split`, `join`, `int(...)`,
  `str(...)`, substring tests) are embedded as explicit functions on
  `List Char`.
* Python `int` is embedded as `Int`.
* YAML dictionaries that the engine mutates are embedded as structures;
  fields that a checkpoint acquires only when first written (round counts,
  `escalate_indices`, `failed_indices`) are `Option`-valued, `none` meaning
  the key is absent.
* Timestamp bookkeeping (`created`, `updated`, `submitted`) carries no
  engine logic and is not modelled.
* Functions that `print` their result are embedded as functions returning
  the printed string.
-/

namespace MemEscalate

/-! ## Python string and integer primitives

The source manipulates Python strings with `split`, `join`, `strip`,
`int(...)`, `str(...)` and the `in` substring test.  These are embedded
here as functions on `List Char` (the underlying data of a Lean
`String`). -/

/-- ASCII whitespace, as stripped by Python's `int(...)` and `str.strip`. -/
def isWS (c : Char) : Bool :=
  c == ' ' || c == '\t' || c == '\n' || c == '\r' || c == '\x0b' || c == '\x0c'

/-- Embeds `str.strip()`: drop whitespace from both ends. -/
def stripChars (l : List Char) : List Char :=
  ((l.dropWhile isWS).reverse.dropWhile isWS).reverse

/-- The decimal digit character for `n < 10` (used by `str(int)`). -/
def digitChar (n : Nat) : Char :=
  match n with
  | 0 => '0' | 1 => '1' | 2 => '2' | 3 => '3' | 4 => '4'
  | 5 => '5' | 6 => '6' | 7 => '7' | 8 => '8' | 9 => '9'
  | _ => '*'

/-- Value of a string of decimal digit characters, most significant
first. -/
def digitsVal (l : List Char) : Nat :=
  l.foldl (fun a c => a * 10 + (c.toNat - 48)) 0

/-- Parse a non-empty all-digit character string as a natural number. -/
def parseDigits (l : List Char) : Option Nat :=
  if l = [] then none
  else if l.all Char.isDigit then some (digitsVal l) else none

/-- Sign-and-digits part of `int(s)`, applied after stripping. -/
def pyIntCore : List Char → Option Int
  | [] => none
  | c :: rest =>
      if c = '-' then (parseDigits rest).map (fun n => -(n : Int))
      else if c = '+' then (parseDigits rest).map (fun n => (n : Int))
      else (parseDigits (c :: rest)).map (fun n => (n : Int))

/-- Embeds CPython `int(s)` on ASCII input: strip whitespace, optional
sign, then a non-empty run of decimal digits (underscore digit separators
and non-ASCII digits are not modelled); `none` embeds `ValueError`. -/
def pyIntL (l : List Char) : Option Int :=
  pyIntCore (stripChars l)

/-- Embeds the test whether one string starts with another. -/
def leadsWith : List Char → List Char → Bool
  | [], _ => true
  | _ :: _, [] => false
  | c :: cs, d :: ds => c == d && leadsWith cs ds

/-- Embeds Python's substring test `needle in hay`. -/
def isSubCh (needle : List Char) : List Char → Bool
  | [] => leadsWith needle []
  | d :: ds => leadsWith needle (d :: ds) || isSubCh needle ds

/-- Embeds `s.split(sep)` for a one-character separator: like Python, the
empty string splits to `[""]` and separators at the ends produce empty
pieces. -/
def splitOnCh (sep : Char) : List Char → List (List Char)
  | [] => [[]]
  | c :: rest =>
      if c = sep then [] :: splitOnCh sep rest
      else
        match splitOnCh sep rest with
        | [] => [[c]]
        | t :: ts => (c :: t) :: ts

/-- Embeds `sep.flatten(parts)` for a one-character separator. -/
def joinCh (sep : Char) : List (List Char) → List Char
  | [] => []
  | [p] => p
  | p :: p₂ :: ps => p ++ sep :: joinCh sep (p₂ :: ps)

/-- Fuelled digit emitter behind `str(n)` for `n : Nat`: peel the least
significant digit onto the accumulator. -/
def natToCharsAux : Nat → Nat → List Char → List Char
  | 0, _, acc => acc
  | fuel + 1, n, acc =>
      if n < 10 then digitChar n :: acc
      else natToCharsAux fuel (n / 10) (digitChar (n % 10) :: acc)

/-- Embeds `str(n)` for a natural number (fuel `n + 1` always suffices). -/
def natToChars (n : Nat) : List Char :=
  natToCharsAux (n + 1) n []

/-- Embeds `str(n)` / f-string interpolation of a Python integer. -/
def intRepr (n : Int) : List Char :=
  if n < 0 then '-' :: natToChars (-n).toNat else natToChars n.toNat

/-! ## Outcome classifier (analyze_job, lines 1616–1650)

The per-task decision of `analyze_job`'s loop, applied to one already
parsed task record (`state` is the first word of the sacct State column,
`exit_code` the raw ExitCode column). -/

/-- Embeds `main_exit`: 0 unless the exit code contains `:`, in which case
the integer parse of the part before the first `:` (0 again when that
parse fails). -/
def pyMainExit (exit_code : String) : Int :=
  if ':' ∈ exit_code.data then
    match pyIntL ((splitOnCh ':' exit_code.data).headD []) with
    | some v => v
    | none => 0
  else 0

/-- Embeds `main_exit in exit_code_handling` plus the lookup: the
configured action for an exit code, if that key is present. -/
def lookupExit : List (Int × String) → Int → Option String
  | [], _ => none
  | (k, a) :: rest, e => if k = e then some a else lookupExit rest e

/-- Embeds the `for cfg_state, cfg_action in state_handling.items()` scan:
the action of the first rule whose substring occurs in the state. -/
def firstRule : List (String × String) → String → Option String
  | [], _ => none
  | (pat, act) :: rest, st =>
      if isSubCh pat.data st.data then some act else firstRule rest st

/-- Embeds the per-task action decision of `analyze_job`: COMPLETE when the
state contains COMPLETED; else the exit-code override when `main_exit` is a
key of the override map; else the first matching state-substring rule;
else `no_retry`. -/
def classify_action (rules : List (String × String))
    (exitMap : List (Int × String)) (state exit_code : String) : String :=
  if isSubCh "COMPLETED".data state.data then "COMPLETE"
  else
    match lookupExit exitMap (pyMainExit exit_code) with
    | some a => a
    | none =>
        match firstRule rules state with
        | some a => a
        | none => "no_retry"

/-- Reference decision procedure, following the claim's words: COMPLETE
when the raw state contains COMPLETED (regardless of exit code); otherwise
the override action when the numeric portion of the exit code — here
passed directly as `numericExit` — is a key of the override map; otherwise
the first state-substring rule in configured order; otherwise `no_retry`. -/
def spec_action (rules : List (String × String))
    (exitMap : List (Int × String)) (state : String) (numericExit : Int) :
    String :=
  if isSubCh "COMPLETED".data state.data then "COMPLETE"
  else
    match lookupExit exitMap numericExit with
    | some a => a
    | none =>
        match firstRule rules state with
        | some a => a
        | none => "no_retry"

/-- A caller-supplied `state_handling` configuration: the ordered
substring→action rules, and the `exit_codes` sub-map (already popped, as
the code does). -/
structure StateHandling where
  rules : List (String × String)
  exit_codes : List (Int × String)
  deriving DecidableEq

/-- The built-in default ordered state rules (analyze_job lines
1565–1574). -/
def defaultRules : List (String × String) :=
  [("OUT_OF_MEMORY", "escalate"), ("TIMEOUT", "escalate"),
   ("DEADLINE", "escalate"), ("PREEMPTED", "escalate"),
   ("BOOT_FAIL", "escalate"), ("NODE_FAIL", "escalate"),
   ("FAILED", "no_retry"), ("CANCELLED", "no_retry")]

/-- The built-in default exit-code override map. -/
def defaultExitCodes : List (Int × String) := [(137, "escalate")]

/-- Embeds analyze_job's configuration loading (lines 1552–1575):
`state_handling = config.get('state_handling', {})`, then
`exit_code_handling = state_handling.pop('exit_codes', {})`, then
`if not state_handling:` installs both defaults.  `none` embeds a missing
config file, an unreadable one, or one without `state_handling`. -/
def load_rules : Option StateHandling →
    List (String × String) × List (Int × String)
  | none => (defaultRules, defaultExitCodes)
  | some sh =>
      if sh.rules = [] then (defaultRules, defaultExitCodes)
      else (sh.rules, sh.exit_codes)

/-! ## Index-set codec (compress_indices, lines 1351–1544)

`compress_indices` prints a comma-separated sequence of pieces, each a
literal `a`, an inclusive range `a-b`, or a strided range `a-b:s`.  The
embedding builds the token list first and renders it afterwards; the
rendered string is character-for-character the printed one (a Python
piece `f"{a},{b}"` is modelled as two literal tokens, which join to the
same characters). -/

inductive Tok where
  | lit (a : Int)
  | rng (a b : Int)
  | srng (a b s : Int)
  deriving DecidableEq

/-- Render one piece exactly as the source's f-strings do. -/
def renderTok : Tok → List Char
  | .lit a => intRepr a
  | .rng a b => intRepr a ++ '-' :: intRepr b
  | .srng a b s => intRepr a ++ '-' :: intRepr b ++ ':' :: intRepr s

/-- Render a token list: the pieces joined with commas. -/
def renderToks (ts : List Tok) : List Char :=
  joinCh ',' (ts.map renderTok)

/-- Insert into a strictly sorted list, dropping duplicates. -/
def insertSD (x : Int) : List Int → List Int
  | [] => [x]
  | y :: ys =>
      if x < y then x :: y :: ys
      else if x = y then y :: ys
      else y :: insertSD x ys

/-- Embeds `sorted(set(...))`: the strictly ascending list of the distinct
members. -/
def sortDedup (l : List Int) : List Int := l.foldr insertSD []

/-- Embeds `gaps = [indices[i] - indices[i-1] for i in range(1, count)]`. -/
def gapsOf (l : List Int) : List Int :=
  List.zipWith (fun a b => b - a) l l.tail

/-- Embeds `all(g == gaps[0] for g in gaps)`. -/
def allSameGaps : List Int → Bool
  | [] => true
  | g :: gs => gs.all (fun x => x == g)

/-- Embeds the inner periodicity check: `gaps[i] == gaps[i % period]` for
every `i` from `period` to `len(gaps) - 1`. -/
def gapsPeriodic (gaps : List Int) (p : Nat) : Bool :=
  (List.range gaps.length).all
    (fun i => decide (i < p) || (gaps.getD i 0 == gaps.getD (i % p) 0))

/-- Embeds the `for period in range(2, 6)` search: the first period with
enough gaps (`len(gaps) >= 2 * period + 1`) that repeats exactly; 0 when
none is found. -/
def findPeriodIn : List Nat → List Int → Nat
  | [], _ => 0
  | p :: ps, gaps =>
      if decide (2 * p + 1 ≤ gaps.length) && gapsPeriodic gaps p then p
      else findPeriodIn ps gaps

/-- The detected period of the gap sequence (`detected_period`). -/
def detectPeriod (gaps : List Int) : Nat := findPeriodIn [2, 3, 4, 5] gaps

/-- Fuelled embedding of `range(start, stop, step)` for naturals. -/
def rangeStepF : Nat → Nat → Nat → Nat → List Nat
  | 0, _, _, _ => []
  | fuel + 1, j, stop, step =>
      if j < stop then j :: rangeStepF fuel (j + step) stop step else []

/-- Embeds Python `range(start, stop, step)` (`stop + 1` fuel suffices for
`step ≥ 1`). -/
def rangeStep (start stop step : Nat) : List Nat :=
  rangeStepF (stop + 1) start stop step

/-- Embeds `[indices[j] for j in range(offset, count, detected_period)]`:
one interleaved lane of the multiplexed stride pattern. -/
def lane (l : List Int) (p offset : Nat) : List Int :=
  (rangeStep offset l.length p).filterMap (fun j => l[j]?)

/-- Embeds the per-lane output rule of the periodic branch: a strided
range for three or more members, the adjacent-pair/pair rule for two, a
literal for one. -/
def laneTok (ts : Int) : List Int → List Tok
  | [] => []
  | [a] => [Tok.lit a]
  | [a, b] => if b = a + 1 then [Tok.rng a b] else [Tok.lit a, Tok.lit b]
  | a :: b :: c :: tl =>
      let e := (b :: c :: tl).getLastD b
      if ts = 1 then [Tok.rng a e] else [Tok.srng a e ts]

/-- Embeds the whole periodic-lane branch: one lane per offset, joined in
offset order. -/
def laneToks (l : List Int) (p : Nat) (ts : Int) : List Tok :=
  ((List.range p).map (fun offset => laneTok ts (lane l p offset))).flatten

/-- Embeds the inner `while` of `compress_group_greedy` (and of the greedy
fallback): consume elements as long as each equals the previous plus
`stride`, returning how many were consumed, the last value reached, and
the remainder. -/
def takeRunF (stride : Int) : Int → List Int → Nat × Int × List Int
  | e, [] => (0, e, [])
  | e, x :: xs =>
      if x = e + stride then
        let t := takeRunF stride x xs
        (t.1 + 1, t.2.1, t.2.2)
      else (0, e, x :: xs)

/-- Fuelled body of `compress_group_greedy`: greedy strided ranges at a
fixed stride, a lone member becoming a literal. -/
def cggF (stride : Int) : Nat → List Int → List Tok
  | 0, _ => []
  | _ + 1, [] => []
  | fuel + 1, g :: gs =>
      let t := takeRunF stride g gs
      if t.1 + 1 ≥ 2 then Tok.srng g t.2.1 stride :: cggF stride fuel t.2.2
      else Tok.lit g :: cggF stride fuel gs

/-- Embeds `compress_group_greedy(group, stride)` (the group's length is
enough fuel: every step consumes at least one member). -/
def compress_group_greedy (stride : Int) (group : List Int) : List Tok :=
  cggF stride group.length group

/-- Embeds the per-group output of the value-modulo branch: literal for a
singleton, the pair rule for two members, greedy strided ranges
otherwise. -/
def modGroupTok (stride : Int) : List Int → List Tok
  | [] => []
  | [g] => [Tok.lit g]
  | [g₀, g₁] =>
      if g₁ - g₀ = stride then [Tok.srng g₀ g₁ stride]
      else [Tok.lit g₀, Tok.lit g₁]
  | group => compress_group_greedy stride group

/-- Embeds the value-modulo grouping for one stride: partition by
`value % stride`, groups emitted in ascending key order. -/
def modGroups (indices : List Int) (stride : Int) : List Tok :=
  ((sortDedup (indices.map (fun i => i % stride))).map
    (fun m => modGroupTok stride
      (indices.filter (fun i => decide (i % stride = m))))).flatten

/-- Embeds `useful_groups`: how many groups have at least three members. -/
def usefulGroups (indices : List Int) (stride : Int) : Nat :=
  (sortDedup (indices.map (fun i => i % stride))).countP
    (fun m => decide
      (3 ≤ (indices.filter (fun i => decide (i % stride = m))).length))

/-- Embeds the `for stride in [10, 5, 2]` loop: skip a stride when the set
is too small or fewer than two groups are useful, accept the grouping when
its rendered length is under two characters per index, else fall
through. -/
def tryStrides (indices : List Int) : List Int → Option (List Tok)
  | [] => none
  | stride :: rest =>
      if (indices.length : Int) < stride * 3 then tryStrides indices rest
      else if usefulGroups indices stride < 2 then tryStrides indices rest
      else
        let toks := modGroups indices stride
        if (renderToks toks).length < indices.length * 2 then some toks
        else tryStrides indices rest

/-- Fuelled embedding of the final greedy fallback: at each position take
the gap to the next element as candidate stride, extend while it repeats,
commit a range for three or more members (or an adjacent pair), else emit
a literal and advance one element. -/
def greedyF : Nat → List Int → List Tok
  | 0, _ => []
  | _ + 1, [] => []
  | _ + 1, [a] => [Tok.lit a]
  | fuel + 1, a :: b :: rest =>
      let stride := b - a
      let t := takeRunF stride b rest
      if t.1 + 2 ≥ 3 then
        (if stride = 1 then Tok.rng a t.2.1 else Tok.srng a t.2.1 stride) ::
          greedyF fuel t.2.2
      else if stride = 1 then Tok.rng a b :: greedyF fuel t.2.2
      else Tok.lit a :: greedyF fuel (b :: rest)

/-- Embeds the greedy fallback pass (the list length is enough fuel). -/
def greedy (l : List Int) : List Tok := greedyF l.length l

/-- Embeds the token-level core of `compress_indices` on an already sorted,
duplicate-free index list: the size 0–2 special cases, then the
periodic-lane branch, the value-modulo branch and the greedy fallback, in
the source's order. -/
def compressTokens (indices : List Int) : List Tok :=
  match indices with
  | [] => []
  | [a] => [Tok.lit a]
  | [a, b] => if b = a + 1 then [Tok.rng a b] else [Tok.lit a, Tok.lit b]
  | _ =>
      let gaps := gapsOf indices
      let period := if allSameGaps gaps then 0 else detectPeriod gaps
      if 1 < period then
        laneToks indices period ((gaps.take period).sum)
      else
        match tryStrides indices [10, 5, 2] with
        | some toks => toks
        | none => greedy indices

/-- `Compress` on a finite set of integers, the set given as an arbitrary
list of members (ordering and duplicates are immaterial, as the source's
`sorted(set(...))` makes them): the printed spec string. -/
def compressList (l : List Int) : String :=
  String.mk (renderToks (compressTokens (sortDedup l)))

/-- Parse every comma piece as a Python int; `none` embeds the
`ValueError` raised by any piece. -/
def parseAll : List (List Char) → Option (List Int)
  | [] => some []
  | t :: ts =>
      match pyIntL t, parseAll ts with
      | some v, some vs => some (v :: vs)
      | _, _ => none

/-- Embeds the whole `compress_indices(indices_str)` command: empty input
prints empty; blank pieces are dropped; a piece that fails `int(...)`
makes the whole input pass through unchanged; otherwise the sorted
deduplicated values are compressed. -/
def compress_indices (indices_str : String) : String :=
  if indices_str.data = [] then ""
  else
    match parseAll ((splitOnCh ',' indices_str.data).filter
        (fun t => !(stripChars t).isEmpty)) with
    | none => indices_str
    | some vals =>
        let indices := sortDedup vals
        if indices = [] then ""
        else String.mk (renderToks (compressTokens indices))

/-! ## The Expand side of the codec

Modelled from the spec: `Expand` is not part of `src` (the scheduler
consumes the spec string), so §4.1's grammar is followed: comma-separated
tokens of the forms `a`, `a-b` (stride 1) and `a-b:s`; a malformed token
is a contract violation (`none`); the empty spec denotes the empty set
(required by §8's round-trip at size 0). -/

/-- The arithmetic progression `a, a + s, ...` with `n` terms. -/
def apInt (a s : Int) (n : Nat) : List Int :=
  (List.range n).map (fun (k : Nat) => a + (k : Int) * s)

/-- The set of values a token denotes, per the spec's grammar: `a-b` is
the inclusive range, `a-b:s` every `a + k * s` up to `b`. -/
def tokVals : Tok → List Int
  | .lit a => [a]
  | .rng a b => if b < a then [] else apInt a 1 ((b - a).toNat + 1)
  | .srng a b s =>
      if b < a ∨ s ≤ 0 then [] else apInt a s ((b - a).toNat / s.toNat + 1)

/-- Well-formedness of a token with respect to the spec's grammar:
non-negative endpoints and a positive stride (what rendering followed by
parsing preserves). -/
def wfTok : Tok → Prop
  | .lit a => 0 ≤ a
  | .rng a b => 0 ≤ a ∧ 0 ≤ b
  | .srng a b s => 0 ≤ a ∧ 0 ≤ b ∧ 1 ≤ s

/-- Modelled from the spec: parse the stride part after `a-b:`. -/
def parseStride (a b : Nat) (r₄ : List Char) : Option Tok :=
  match parseDigits r₄ with
  | some s => if s = 0 then none else some (Tok.srng a b s)
  | none => none

/-- Modelled from the spec: parse the part after `a-`: either a bare
second number (`a-b`) or one followed by `:s`. -/
def parseTokDash (a : Nat) (r₂ : List Char) : Option Tok :=
  match parseDigits (r₂.takeWhile Char.isDigit),
      r₂.dropWhile Char.isDigit with
  | some b, [] => some (Tok.rng a b)
  | some b, ':' :: r₄ => parseStride a b r₄
  | _, _ => none

/-- Modelled from the spec: parse what follows the first number: nothing
(a literal) or a `-` and the rest of a range. -/
def parseTokAfter (a : Nat) : List Char → Option Tok
  | [] => some (Tok.lit a)
  | '-' :: r₂ => parseTokDash a r₂
  | _ => none

/-- Modelled from the spec: parse one token of the grammar
`a | a-b | a-b:s` with non-negative decimal numbers and positive
stride. -/
def parseTokCh (t : List Char) : Option Tok :=
  match parseDigits (t.takeWhile Char.isDigit) with
  | some a => parseTokAfter a (t.dropWhile Char.isDigit)
  | none => none

/-- Parse every comma token; `none` on any malformed token. -/
def parseAllToks : List (List Char) → Option (List Tok)
  | [] => some []
  | t :: ts =>
      match parseTokCh t, parseAllToks ts with
      | some tok, some toks => some (tok :: toks)
      | _, _ => none

/-- Modelled from the spec: `Expand(spec)` — parse the comma-separated
tokens and take the union of their values; `none` embeds the §7
`CodecInputError` on a malformed token. -/
def expand_spec (s : String) : Option (List Int) :=
  if s.data = [] then some []
  else
    match parseAllToks (splitOnCh ',' s.data) with
    | some toks => some ((toks.map tokVals).flatten)
    | none => none

/-! ## Checkpoint data model (§3 of the spec)

`Round` embeds one entry of the checkpoint's `rounds` list, with exactly
the keys the engine reads or writes.  `ChainState` embeds the `state`
sub-dictionary.  `Checkpoint` embeds the whole mutable record (immutable
creation-time fields other than `max_level` are irrelevant to the claims
and omitted). -/

structure Round where
  job_id : Int
  job_ids : List Int
  handler_id : Int
  array_spec : String
  level : Int
  memory : String
  status : String
  completed_count : Option Int := none
  oom_count : Option Int := none
  timeout_count : Option Int := none
  failed_count : Option Int := none
  escalate_indices : Option String := none
  deriving DecidableEq

structure ChainState where
  current_level : Int
  current_memory : String
  current_time : String
  pending_indices : String
  completed_count : Int
  status : String
  escalate_count : Option Int := none
  failed_count : Option Int := none
  failed_indices : Option String := none
  deriving DecidableEq

structure Checkpoint where
  max_level : Int
  state : ChainState
  rounds : List Round
  deriving DecidableEq

/-! ## Engine operations

Each is the pure body of the corresponding Python function: the delta it
applies between the checkpoint read and the checkpoint write. -/

/-- Embeds `update_array_round` (RecordRound): set chain status RUNNING and
append a RUNNING round.  The comma-separated `job_ids_str` argument arrives
already split into a list; `first_job = job_ids[0] if job_ids else 0`. -/
def update_array_round (cp : Checkpoint) (job_ids : List Int) (handler_id : Int)
    (array_spec : String) (level : Int) (memory : String) : Checkpoint :=
  { cp with
    state := { cp.state with status := "RUNNING" }
    rounds := cp.rounds ++ [{
      job_id := job_ids.headD 0
      job_ids := job_ids
      handler_id := handler_id
      array_spec := array_spec
      level := level
      memory := memory
      status := "RUNNING" }] }

/-- The in-place update `mark_completed` applies to a matched round. -/
def completeRound (c : Int) (r : Round) : Round :=
  { r with status := "COMPLETED", completed_count := some c }

/-- Embeds the `for round_data in cp.get('rounds', [])` loop of
`mark_completed`: update the first round whose `job_id` matches (then
`break`), and report whether a match was found. -/
def updateFirstRound (job_id : Int) (c : Int) : List Round → List Round × Bool
  | [] => ([], false)
  | r :: rs =>
    if r.job_id = job_id then
      (completeRound c r :: rs, true)
    else
      let p := updateFirstRound job_id c rs
      (r :: p.1, p.2)

/-- Apply `f` to the last element of a list (the Python `cp['rounds'][-1]`
in-place mutation); the empty list is untouched. -/
def setLast (f : Round → Round) : List Round → List Round
  | [] => []
  | [r] => [f r]
  | r :: r₂ :: rs => r :: setLast f (r₂ :: rs)

/-- The rounds-list part of `mark_completed`: update the first round whose
`job_id` matches; when none matches, update the last round instead. -/
def mcRounds (job_id c : Int) (rs : List Round) : List Round :=
  let p := updateFirstRound job_id c rs
  if p.2 then p.1 else setLast (completeRound c) p.1

/-- Embeds `mark_completed`: set status COMPLETED, record the completed
count, clear `pending_indices`, and mark the round matching `job_id`
(or the last round when none matches) COMPLETED with that count. -/
def mark_completed (cp : Checkpoint) (job_id : Int) (completed_count : Int) :
    Checkpoint :=
  { cp with
    state := { cp.state with
      status := "COMPLETED"
      completed_count := completed_count
      pending_indices := "" }
    rounds := mcRounds job_id completed_count cp.rounds }

/-- Embeds `mark_failed`: set status `FAILED_MAX_<reason>` and store the
never-retried indices. -/
def mark_failed (cp : Checkpoint) (failed_indices : String) (reason : String) :
    Checkpoint :=
  { cp with
    state := { cp.state with
      status := "FAILED_MAX_" ++ reason
      failed_indices := some failed_indices } }

/-- The in-place update `update_escalation` applies to the previous last
round: record the outcome counts and mark it ESCALATING. -/
def escalateRound (completed_count oom_count timeout_count failed_count : Int)
    (escalate_indices : String) (r : Round) : Round :=
  { r with
    status := "ESCALATING"
    completed_count := some completed_count
    oom_count := some oom_count
    timeout_count := some timeout_count
    failed_count := some failed_count
    escalate_indices := some escalate_indices }

/-- Embeds `update_escalation` (Escalate): move the chain to the next
level/memory with status ESCALATING and the escalated indices pending,
record the outcome onto the previous last round, then append a new PENDING
round for the retry submission. -/
def update_escalation (cp : Checkpoint) (next_level : Int) (next_mem : String)
    (escalate_indices : String) (retry_jobs : List Int) (handler_id : Int)
    (completed_count escalate_count oom_count timeout_count failed_count : Int) :
    Checkpoint :=
  { cp with
    state := { cp.state with
      current_level := next_level
      current_memory := next_mem
      pending_indices := escalate_indices
      status := "ESCALATING"
      escalate_count := some escalate_count
      failed_count := some failed_count }
    rounds :=
      setLast (escalateRound completed_count oom_count timeout_count
        failed_count escalate_indices) cp.rounds ++ [{
      job_id := retry_jobs.headD 0
      job_ids := retry_jobs
      handler_id := handler_id
      array_spec := escalate_indices
      level := next_level
      memory := next_mem
      status := "PENDING" }] }

/-! ## The `modify_checkpoint` read-modify-write wrapper

`modify_checkpoint` is a `@contextmanager` generator whose `try` block
wraps the read, the `yield` and the write-back, with a bare
`except Exception` that prints a warning.  The `with modify_checkpoint(path)
as cp:` protocol therefore behaves as follows:

* if the read (open or YAML parse) raises, the generator's `except` catches
  it and prints the warning, the generator returns **without yielding**, and
  `contextlib`'s `__enter__` turns the resulting `StopIteration` into
  `RuntimeError("generator didn't yield")`, which propagates to the caller;
  no write occurs;
* if the read succeeds, the body runs and the record is written back.

`ModifyOutcome` records the three observables: the write (if any), whether
the warning was printed, and the exception (if any) escaping to the caller. -/

structure ModifyOutcome where
  written : Option Checkpoint
  warned : Bool
  exn : Option String
  deriving DecidableEq

/-- Embeds one `with modify_checkpoint(path) as cp: body` execution, given
the outcome of reading and parsing the checkpoint file (`Except.error` when
the file is unreadable or malformed) and the pure body `f` of the
operation. -/
def modify_checkpoint_run (readRes : Except String Checkpoint)
    (f : Checkpoint → Checkpoint) : ModifyOutcome :=
  match readRes with
  | .error _ =>
      { written := none
        warned := true
        exn := some "RuntimeError: generator did not yield" }
  | .ok cp =>
      { written := some (f cp)
        warned := false
        exn := none }

/-! ## Concrete sample data for counterexamples and witnesses -/

/-- A chain state with RUNNING status. -/
def sampleState : ChainState :=
  { current_level := 0
    current_memory := "1G"
    current_time := "01:00:00"
    pending_indices := "0-9"
    completed_count := 0
    status := "RUNNING" }

/-- A round with the given job id and status. -/
def mkRound (j : Int) (st : String) : Round :=
  { job_id := j
    job_ids := [j]
    handler_id := j + 1
    array_spec := "0-9"
    level := 0
    memory := "1G"
    status := st }

/-- A chain whose history contains a stale PENDING round that is not the
last round. -/
def cpStale : Checkpoint :=
  { max_level := 2
    state := sampleState
    rounds := [mkRound 1 "PENDING", mkRound 3 "RUNNING"] }

/-- A chain with COMPLETED (terminal) status. -/
def cpDone : Checkpoint :=
  { max_level := 2
    state := { sampleState with status := "COMPLETED" }
    rounds := [mkRound 1 "COMPLETED"] }

/-- A chain with one RUNNING round. -/
def cpRun : Checkpoint :=
  { max_level := 2
    state := sampleState
    rounds := [mkRound 1 "RUNNING"] }

/-! ## Round-list search helpers -/

/-- First index of a round satisfying `p` (the implicit search order of
`mark_completed`'s loop). -/
def findIdxR (p : Round → Bool) : List Round → Option Nat
  | [] => none
  | r :: rs => if p r then some 0 else (findIdxR p rs).map (· + 1)

/-- The index of the round `mark_completed` updates: the first round whose
`job_id` matches, else the last round, else none (empty history). -/
def mcTarget (rs : List Round) (job_id : Int) : Option Nat :=
  match findIdxR (fun r => decide (r.job_id = job_id)) rs with
  | some i => some i
  | none => if rs.isEmpty then none else some (rs.length - 1)

theorem updateFirstRound_length (j c : Int) :
    ∀ rs : List Round, (updateFirstRound j c rs).1.length = rs.length := by
  intro rs
  induction rs with
  | nil => rfl
  | cons r tl ih =>
      by_cases h : r.job_id = j <;> simp [updateFirstRound, h, ih]

theorem setLast_length (f : Round → Round) :
    ∀ l : List Round, (setLast f l).length = l.length := by
  intro l
  induction l with
  | nil => rfl
  | cons r tl ih =>
      cases tl with
      | nil => rfl
      | cons r₂ tl₂ => simpa [setLast] using ih

theorem updateFirstRound_snd (j c : Int) :
    ∀ rs : List Round,
      (updateFirstRound j c rs).2 =
        (findIdxR (fun r => decide (r.job_id = j)) rs).isSome := by
  intro rs
  induction rs with
  | nil => rfl
  | cons r tl ih =>
      by_cases h : r.job_id = j <;> simp [updateFirstRound, findIdxR, h, ih]

theorem updateFirstRound_not_found (j c : Int) :
    ∀ rs : List Round, (updateFirstRound j c rs).2 = false →
      (updateFirstRound j c rs).1 = rs := by
  intro rs
  induction rs with
  | nil => intro; rfl
  | cons r tl ih =>
      by_cases h : r.job_id = j <;> intro hf <;>
        simp_all [updateFirstRound, h]

theorem setLast_getElem? (f : Round → Round) :
    ∀ (l : List Round) (i : Nat),
      (setLast f l)[i]? =
        if i + 1 = l.length then l[i]?.map f else l[i]? := by
  intro l
  induction l with
  | nil => intro i; simp [setLast]
  | cons r tl ih =>
      intro i
      cases tl with
      | nil =>
          match i with
          | 0 => simp [setLast]
          | n + 1 => simp [setLast]
      | cons r₂ tl₂ =>
          match i with
          | 0 =>
              have h0 : (0 : Nat) + 1 ≠ (r :: r₂ :: tl₂).length := by
                simp [List.length_cons]
              simp [setLast, h0]
          | n + 1 =>
              have h := ih n
              simp only [setLast, List.getElem?_cons_succ, List.length_cons]
              rw [h]
              by_cases hn : n + 1 = tl₂.length + 1
              · simp [hn]
              · have hn' : ¬ (n + 1 + 1 = tl₂.length + 1 + 1) := by omega
                simp [hn, hn']

theorem mcRounds_cons_found (j c : Int) (r : Round) (tl : List Round)
    (h : ¬ r.job_id = j) (hf : (updateFirstRound j c tl).2 = true) :
    mcRounds j c (r :: tl) = r :: mcRounds j c tl := by
  simp [mcRounds, updateFirstRound, h, hf]

/-- Pointwise description of `mcRounds`: the target round (first match, else
last) gets `completeRound` applied; every other position is untouched. -/
theorem mcRounds_getElem? (j c : Int) :
    ∀ (rs : List Round) (i : Nat),
      (mcRounds j c rs)[i]? =
        if mcTarget rs j = some i
        then rs[i]?.map (completeRound c)
        else rs[i]? := by
  intro rs
  induction rs with
  | nil => intro i; simp [mcRounds, mcTarget, updateFirstRound, setLast, findIdxR]
  | cons r tl ih =>
      intro i
      by_cases h : r.job_id = j
      · have hmc : mcRounds j c (r :: tl) = completeRound c r :: tl := by
          simp [mcRounds, updateFirstRound, h]
        have htg : mcTarget (r :: tl) j = some 0 := by
          simp [mcTarget, findIdxR, h]
        rw [hmc, htg]
        match i with
        | 0 => simp
        | n + 1 => simp
      · have hfind : findIdxR (fun r => decide (r.job_id = j)) (r :: tl) =
            (findIdxR (fun r => decide (r.job_id = j)) tl).map (· + 1) := by
          simp [findIdxR, h]
        by_cases hf : (updateFirstRound j c tl).2 = true
        · obtain ⟨k, hk⟩ : ∃ k, findIdxR (fun r => decide (r.job_id = j)) tl =
              some k := by
            have := updateFirstRound_snd j c tl
            rw [hf] at this
            exact Option.isSome_iff_exists.mp this.symm
          have htg : mcTarget (r :: tl) j = some (k + 1) := by
            simp [mcTarget, hfind, hk]
          have htgtl : mcTarget tl j = some k := by simp [mcTarget, hk]
          rw [mcRounds_cons_found j c r tl h hf, htg]
          match i with
          | 0 => simp
          | n + 1 =>
              have := ih n
              rw [htgtl] at this
              simp only [List.getElem?_cons_succ]
              rw [this]
              by_cases hkn : k = n
              · simp [hkn]
              · have h1 : ¬ (some k = some n) := by simp [hkn]
                have h2 : ¬ (some (k + 1) = some (n + 1)) := by simp [hkn]
                simp [h1, h2]
        · have hf' : (updateFirstRound j c tl).2 = false := by
            simpa using hf
          have hnone : findIdxR (fun r => decide (r.job_id = j)) tl = none := by
            have := updateFirstRound_snd j c tl
            rw [hf'] at this
            exact Option.not_isSome_iff_eq_none.mp (by simp [this.symm])
          have hmc : mcRounds j c (r :: tl) = setLast (completeRound c) (r :: tl) := by
            have hfr : updateFirstRound j c (r :: tl) =
                ((r :: (updateFirstRound j c tl).1), (updateFirstRound j c tl).2) := by
              simp [updateFirstRound, h]
            have hunch := updateFirstRound_not_found j c tl hf'
            simp [mcRounds, hfr, hf', hunch]
          have htg : mcTarget (r :: tl) j = some tl.length := by
            simp [mcTarget, hfind, hnone, findIdxR, h]
          rw [hmc, htg, setLast_getElem?]
          by_cases hi : i = tl.length
          · have : i + 1 = (r :: tl).length := by simp [hi]
            simp [hi, this]
          · have h1 : ¬ (i + 1 = (r :: tl).length) := by
              simp only [List.length_cons]; omega
            have h2 : ¬ (some tl.length = some i) := by simp [hi, eq_comm]
            rw [if_neg h1, if_neg h2]

theorem mcRounds_length (j c : Int) (rs : List Round) :
    (mcRounds j c rs).length = rs.length := by
  unfold mcRounds
  by_cases hf : (updateFirstRound j c rs).2 = true
  · simp [hf, updateFirstRound_length]
  · have hf' : (updateFirstRound j c rs).2 = false := by simpa using hf
    simp [hf', setLast_length, updateFirstRound_length]

theorem updateFirstRound_map_job_id (j c : Int) :
    ∀ rs : List Round,
      (updateFirstRound j c rs).1.map Round.job_id = rs.map Round.job_id := by
  intro rs
  induction rs with
  | nil => rfl
  | cons r tl ih =>
      by_cases h : r.job_id = j <;> simp [updateFirstRound, h, ih, completeRound]

theorem setLast_map_job_id (f : Round → Round)
    (hf : ∀ r, (f r).job_id = r.job_id) :
    ∀ l : List Round, (setLast f l).map Round.job_id = l.map Round.job_id := by
  intro l
  induction l with
  | nil => rfl
  | cons r tl ih =>
      cases tl with
      | nil => simp [setLast, hf]
      | cons r₂ tl₂ => simpa [setLast] using ih

theorem mcRounds_map_job_id (j c : Int) (rs : List Round) :
    (mcRounds j c rs).map Round.job_id = rs.map Round.job_id := by
  unfold mcRounds
  by_cases hf : (updateFirstRound j c rs).2 = true
  · simp [hf, updateFirstRound_map_job_id]
  · have hf' : (updateFirstRound j c rs).2 = false := by simpa using hf
    simp only [hf', if_false, Bool.false_eq_true]
    rw [setLast_map_job_id (completeRound c) (fun r => rfl)]
    exact updateFirstRound_map_job_id j c rs

theorem findIdxR_job_id_congr (j : Int) :
    ∀ l₁ l₂ : List Round, l₁.map Round.job_id = l₂.map Round.job_id →
      findIdxR (fun r => decide (r.job_id = j)) l₁ =
        findIdxR (fun r => decide (r.job_id = j)) l₂ := by
  intro l₁
  induction l₁ with
  | nil =>
      intro l₂ h
      cases l₂ with
      | nil => rfl
      | cons b tl₂ => simp at h
  | cons a tl₁ ih =>
      intro l₂ h
      cases l₂ with
      | nil => simp at h
      | cons b tl₂ =>
          simp only [List.map_cons, List.cons.injEq] at h
          simp [findIdxR, h.1, ih tl₂ h.2]

theorem length_eq_isEmpty_eq {l₁ l₂ : List Round} (h : l₁.length = l₂.length) :
    l₁.isEmpty = l₂.isEmpty := by
  cases l₁ <;> cases l₂ <;> simp_all

theorem mcTarget_stable (j c : Int) (rs : List Round) :
    mcTarget (mcRounds j c rs) j = mcTarget rs j := by
  unfold mcTarget
  rw [findIdxR_job_id_congr j _ _ (mcRounds_map_job_id j c rs),
    mcRounds_length, length_eq_isEmpty_eq (mcRounds_length j c rs)]

theorem mcRounds_idem (j c : Int) (rs : List Round) :
    mcRounds j c (mcRounds j c rs) = mcRounds j c rs := by
  apply List.ext_getElem?
  intro i
  rw [mcRounds_getElem?, mcTarget_stable, mcRounds_getElem?]
  by_cases h : mcTarget rs j = some i
  · simp only [h, if_pos]
    rw [Option.map_map]
    rfl
  · simp only [h, if_neg, reduceIte]

/-! ## Decimal printing and parsing lemmas -/

theorem digitChar_isDigit (d : Nat) (h : d < 10) :
    (digitChar d).isDigit = true := by
  interval_cases d <;> decide

theorem digitChar_toNat (d : Nat) (h : d < 10) :
    (digitChar d).toNat - 48 = d := by
  interval_cases d <;> decide

theorem natToCharsAux_acc : ∀ (fuel n : Nat) (acc : List Char),
    natToCharsAux fuel n acc = natToCharsAux fuel n [] ++ acc := by
  intro fuel
  induction fuel with
  | zero => intro n acc; rfl
  | succ f ih =>
      intro n acc
      by_cases h : n < 10
      · simp [natToCharsAux, h]
      · simp only [natToCharsAux, h, if_false]
        rw [ih (n / 10) (digitChar (n % 10) :: acc),
          ih (n / 10) [digitChar (n % 10)]]
        simp

theorem natToCharsAux_stable : ∀ (f₁ f₂ m : Nat), m < 10 ^ (f₁ + 1) →
    m < 10 ^ (f₂ + 1) →
    natToCharsAux (f₁ + 1) m [] = natToCharsAux (f₂ + 1) m [] := by
  intro f₁
  induction f₁ with
  | zero =>
      intro f₂ m h₁ h₂
      have hm : m < 10 := by simpa using h₁
      cases f₂ with
      | zero => rfl
      | succ g₂ => simp [natToCharsAux, hm]
  | succ g ih =>
      intro f₂ m h₁ h₂
      by_cases hm : m < 10
      · cases f₂ <;> simp [natToCharsAux, hm]
      · cases f₂ with
        | zero =>
            exfalso
            have : m < 10 := by simpa using h₂
            omega
        | succ g₂ =>
            have s1 : natToCharsAux (g + 1 + 1) m [] =
                natToCharsAux (g + 1) (m / 10) [digitChar (m % 10)] := by
              rw [natToCharsAux, if_neg hm]
            have s2 : natToCharsAux (g₂ + 1 + 1) m [] =
                natToCharsAux (g₂ + 1) (m / 10) [digitChar (m % 10)] := by
              rw [natToCharsAux, if_neg hm]
            rw [s1, s2, natToCharsAux_acc (g + 1) (m / 10),
              natToCharsAux_acc (g₂ + 1) (m / 10)]
            congr 1
            apply ih
            · have hp : m < 10 ^ (g + 1) * 10 := by
                rw [← pow_succ]; exact h₁
              exact (Nat.div_lt_iff_lt_mul (by norm_num)).mpr hp
            · have hp : m < 10 ^ (g₂ + 1) * 10 := by
                rw [← pow_succ]; exact h₂
              exact (Nat.div_lt_iff_lt_mul (by norm_num)).mpr hp

theorem natToChars_rec (n : Nat) :
    natToChars n =
      if n < 10 then [digitChar n]
      else natToChars (n / 10) ++ [digitChar (n % 10)] := by
  by_cases h : n < 10
  · simp [natToChars, natToCharsAux, h]
  · rw [if_neg h]
    show natToCharsAux (n + 1) n [] = _
    have step : natToCharsAux (n + 1) n [] =
        natToCharsAux n (n / 10) [digitChar (n % 10)] := by
      simp [natToCharsAux, h]
    rw [step, natToCharsAux_acc]
    congr 1
    obtain ⟨k, rfl⟩ : ∃ k, n = k + 1 := ⟨n - 1, by omega⟩
    apply natToCharsAux_stable
    · have h1 : (k + 1) / 10 ≤ k + 1 := Nat.div_le_self _ _
      have h2 : k + 1 < 10 ^ (k + 1) := Nat.lt_pow_self (by norm_num) _
      omega
    · have h1 : (k + 1) / 10 < 10 ^ ((k + 1) / 10) :=
        Nat.lt_pow_self (by norm_num) _
      have h2 : (10 : Nat) ^ ((k + 1) / 10) ≤ 10 ^ ((k + 1) / 10 + 1) :=
        Nat.pow_le_pow_right (by norm_num) (by omega)
      omega

theorem natToChars_ne_nil (n : Nat) : natToChars n ≠ [] := by
  rw [natToChars_rec]
  split <;> simp

theorem natToChars_digits (n : Nat) : ∀ c ∈ natToChars n, c.isDigit = true := by
  induction n using Nat.strong_induction_on with
  | _ n ih =>
      rw [natToChars_rec]
      by_cases h : n < 10
      · simp only [h, if_true, List.mem_singleton]
        rintro c rfl
        exact digitChar_isDigit n h
      · simp only [h, if_false, List.mem_append, List.mem_singleton]
        rintro c (hc | rfl)
        · exact ih (n / 10) (by omega) c hc
        · exact digitChar_isDigit (n % 10) (Nat.mod_lt _ (by norm_num))

theorem foldl_natToChars (n : Nat) : ∀ a : Nat,
    List.foldl (fun a c => a * 10 + (c.toNat - 48)) a (natToChars n) =
      a * 10 ^ (natToChars n).length + n := by
  induction n using Nat.strong_induction_on with
  | _ n ih =>
      intro a
      rw [natToChars_rec]
      by_cases h : n < 10
      · simp only [h, if_true, List.foldl_cons, List.foldl_nil,
          List.length_singleton, pow_one]
        rw [digitChar_toNat n h]
      · simp only [h, if_false, List.foldl_append, List.foldl_cons,
          List.foldl_nil, List.length_append, List.length_singleton]
        rw [ih (n / 10) (by omega) a,
          digitChar_toNat (n % 10) (Nat.mod_lt _ (by norm_num))]
        have h2 : n / 10 * 10 + n % 10 = n := by omega
        calc (a * 10 ^ (natToChars (n / 10)).length + n / 10) * 10 + n % 10
            = a * (10 ^ (natToChars (n / 10)).length * 10) +
                (n / 10 * 10 + n % 10) := by ring
          _ = a * 10 ^ ((natToChars (n / 10)).length + 1) + n := by
              rw [← pow_succ, h2]

theorem digitsVal_natToChars (n : Nat) : digitsVal (natToChars n) = n := by
  have h := foldl_natToChars n 0
  simpa [digitsVal] using h

theorem parseDigits_natToChars (n : Nat) :
    parseDigits (natToChars n) = some n := by
  rw [parseDigits, if_neg (natToChars_ne_nil n)]
  have hall : (natToChars n).all Char.isDigit = true :=
    List.all_eq_true.mpr (natToChars_digits n)
  rw [if_pos hall, digitsVal_natToChars]

theorem not_isWS_of_isDigit (c : Char) (h : c.isDigit = true) :
    isWS c = false := by
  cases hw : isWS c
  · rfl
  · exfalso
    have h6 := hw
    simp only [isWS, Bool.or_eq_true, beq_iff_eq] at h6
    rcases h6 with ((((h1 | h1) | h1) | h1) | h1) | h1 <;>
      (subst h1; exact absurd h (by decide))

theorem dropWhile_isWS_id {l : List Char} (h : ∀ c ∈ l, isWS c = false) :
    l.dropWhile isWS = l := by
  cases l with
  | nil => rfl
  | cons c tl =>
      simp [List.dropWhile_cons, h c (List.mem_cons_self c tl)]

theorem stripChars_id {l : List Char} (h : ∀ c ∈ l, isWS c = false) :
    stripChars l = l := by
  unfold stripChars
  rw [dropWhile_isWS_id h,
    dropWhile_isWS_id (fun c hc => h c (List.mem_reverse.mp hc))]
  exact List.reverse_reverse l

theorem isDigit_ne_special (c : Char) (h : c.isDigit = true) :
    c ≠ '-' ∧ c ≠ '+' ∧ c ≠ ':' ∧ c ≠ ',' := by
  refine ⟨?_, ?_, ?_, ?_⟩ <;> (rintro rfl; exact absurd h (by decide))

theorem pyIntL_natToChars (n : Nat) : pyIntL (natToChars n) = some (n : Int) := by
  have hd := natToChars_digits n
  have hstrip : stripChars (natToChars n) = natToChars n :=
    stripChars_id (fun c hc => not_isWS_of_isDigit c (hd c hc))
  rw [pyIntL, hstrip]
  cases hnc : natToChars n with
  | nil => exact absurd hnc (natToChars_ne_nil n)
  | cons c rest =>
      have hcdig : c.isDigit = true := hd c (by rw [hnc]; exact List.mem_cons_self c rest)
      obtain ⟨hne1, hne2, -, -⟩ := isDigit_ne_special c hcdig
      rw [pyIntCore, if_neg hne1, if_neg hne2, ← hnc,
        parseDigits_natToChars]
      rfl

theorem pyIntL_intRepr (r : Int) : pyIntL (intRepr r) = some r := by
  by_cases hr : r < 0
  · rw [intRepr, if_pos hr]
    have hd := natToChars_digits (-r).toNat
    have hstrip : stripChars ('-' :: natToChars (-r).toNat) =
        '-' :: natToChars (-r).toNat := by
      apply stripChars_id
      intro c hc
      rcases List.mem_cons.mp hc with rfl | hc
      · decide
      · exact not_isWS_of_isDigit c (hd c hc)
    rw [pyIntL, hstrip, pyIntCore, if_pos rfl, parseDigits_natToChars]
    have : ((-r).toNat : Int) = -r := Int.toNat_of_nonneg (by omega)
    simp [this]
  · rw [intRepr, if_neg hr]
    rw [pyIntL_natToChars]
    have : (r.toNat : Int) = r := Int.toNat_of_nonneg (by omega)
    rw [this]

theorem intRepr_chars (r : Int) :
    ∀ c ∈ intRepr r, c.isDigit = true ∨ c = '-' := by
  intro c hc
  rw [intRepr] at hc
  by_cases hr : r < 0
  · rw [if_pos hr] at hc
    rcases List.mem_cons.mp hc with rfl | hc
    · right; rfl
    · left; exact natToChars_digits _ c hc
  · rw [if_neg hr] at hc
    left; exact natToChars_digits _ c hc

theorem intRepr_no_colon (r : Int) : ∀ c ∈ intRepr r, c ≠ ':' := by
  intro c hc
  rcases intRepr_chars r c hc with hd | rfl
  · exact (isDigit_ne_special c hd).2.2.1
  · decide

theorem splitOnCh_append (sep : Char) : ∀ (pre rest : List Char),
    (∀ c ∈ pre, c ≠ sep) →
    splitOnCh sep (pre ++ sep :: rest) = pre :: splitOnCh sep rest := by
  intro pre
  induction pre with
  | nil => intro rest h; simp [splitOnCh]
  | cons c pre₂ ih =>
      intro rest h
      have hc : c ≠ sep := h c (List.mem_cons_self c pre₂)
      have ih2 := ih rest (fun d hd => h d (List.mem_cons_of_mem c hd))
      show splitOnCh sep (c :: (pre₂ ++ sep :: rest)) = _
      rw [splitOnCh, if_neg hc, ih2]

/-! ## Classifier claim theorems -/

theorem pyMainExit_wellformed (r : Int) (sig : String) :
    pyMainExit (String.mk (intRepr r ++ ':' :: sig.data)) = r := by
  have hmem : ':' ∈ (String.mk (intRepr r ++ ':' :: sig.data)).data := by
    show ':' ∈ intRepr r ++ ':' :: sig.data
    simp
  rw [pyMainExit, if_pos hmem]
  show (match pyIntL ((splitOnCh ':' (intRepr r ++ ':' :: sig.data)).headD [])
      with
    | some v => v
    | none => 0) = r
  rw [splitOnCh_append ':' (intRepr r) sig.data (intRepr_no_colon r)]
  show (match pyIntL (intRepr r) with
    | some v => v
    | none => 0) = r
  rw [pyIntL_intRepr]

/-- C3: on every task record whose exit code has the scheduler's
`return_code:signal` shape, the per-task action derived by `analyze_job`
equals the claim's reference decision procedure applied to the raw state
and the numeric portion `r` of the exit code: COMPLETE when the state
contains COMPLETED (regardless of exit code), else the exit-code override
for `r` when present, else the first matching state-substring rule in
configured order, else `no_retry`. -/
theorem classify_action_matches_spec (rules : List (String × String))
    (exitMap : List (Int × String)) (state : String) (r : Int) (sig : String) :
    classify_action rules exitMap state
        (String.mk (intRepr r ++ ':' :: sig.data)) =
      spec_action rules exitMap state r := by
  rw [classify_action, spec_action, pyMainExit_wellformed]

/-- C4 counterexample: a configuration whose `state_handling` contains only
an `exit_codes` sub-map is not honoured — the supplied exit-code map is
discarded and both built-in defaults are installed instead. -/
theorem load_rules_claim_false :
    ¬ (∀ sh : StateHandling,
        load_rules (some sh) = (sh.rules, sh.exit_codes)) := by
  intro h
  have h2 := h ⟨[], [(1, "no_retry")]⟩
  have h3 : load_rules (some ⟨[], [(1, "no_retry")]⟩) =
      (defaultRules, defaultExitCodes) := rfl
  rw [h3] at h2
  have h4 : defaultRules ≠ ([] : List (String × String)) := by decide
  exact h4 (congrArg Prod.fst h2)

/-- C4 (amended): the built-in defaults (state rules and exit-code override
`{137: escalate}`) are used when no configuration is supplied **and also**
when the supplied `state_handling` contains no substring rules — in
particular a configuration holding only an `exit_codes` sub-map is treated
as unconfigured and its exit-code map is discarded; the supplied rules are
used exactly when at least one substring rule is present. -/
theorem load_rules_amended (m : List (Int × String)) (sh : StateHandling)
    (h : sh.rules ≠ []) :
    load_rules none = (defaultRules, defaultExitCodes) ∧
    load_rules (some ⟨[], m⟩) = (defaultRules, defaultExitCodes) ∧
    load_rules (some sh) = (sh.rules, sh.exit_codes) := by
  refine ⟨rfl, rfl, ?_⟩
  rw [load_rules, if_neg h]

/-- C4 witness: the amended behaviour at a concrete supplied
configuration. -/
theorem load_rules_amended_witness :
    ([("OOM_KILL", "escalate")] ≠ ([] : List (String × String))) ∧
    (load_rules none = (defaultRules, defaultExitCodes) ∧
    load_rules (some ⟨[], [(1, "escalate")]⟩) =
      (defaultRules, defaultExitCodes) ∧
    load_rules (some ⟨[("OOM_KILL", "escalate")], [(1, "escalate")]⟩) =
      ([("OOM_KILL", "escalate")], [(1, "escalate")])) :=
  ⟨by decide,
    load_rules_amended [(1, "escalate")]
      ⟨[("OOM_KILL", "escalate")], [(1, "escalate")]⟩ (by decide)⟩

/-! ## Codec round-trip, part 1: sorting and arithmetic progressions -/

theorem mem_insertSD (x a : Int) : ∀ l : List Int,
    x ∈ insertSD a l ↔ x = a ∨ x ∈ l := by
  intro l
  induction l with
  | nil => simp [insertSD]
  | cons y ys ih =>
      simp only [insertSD]
      split_ifs with h1 h2
      · simp
      · subst h2
        simp only [List.mem_cons]
        tauto
      · simp only [List.mem_cons, ih]
        tauto

theorem chain_insertSD_head (a : Int) : ∀ (l : List Int) (z : Int),
    (insertSD a l).head? = some z → z = a ∨ l.head? = some z := by
  intro l z
  cases l with
  | nil =>
      intro h
      simp [insertSD] at h
      exact Or.inl h.symm
  | cons y ys =>
      simp only [insertSD]
      split_ifs with h1 h2
      · intro h
        simp at h
        exact Or.inl h.symm
      · intro h
        exact Or.inr h
      · intro h
        exact Or.inr h

theorem chain_insertSD (a : Int) : ∀ l : List Int,
    List.Chain' (· < ·) l → List.Chain' (· < ·) (insertSD a l) := by
  intro l
  induction l with
  | nil => intro; exact List.chain'_singleton a
  | cons y ys ih =>
      intro hc
      rw [List.chain'_cons'] at hc
      simp only [insertSD]
      split_ifs with h1 h2
      · rw [List.chain'_cons']
        refine ⟨?_, List.chain'_cons'.mpr hc⟩
        intro z hz
        simp at hz
        omega
      · exact List.chain'_cons'.mpr hc
      · rw [List.chain'_cons']
        refine ⟨?_, ih hc.2⟩
        intro z hz
        rcases chain_insertSD_head a ys z hz with rfl | hz₂
        · omega
        · exact hc.1 z hz₂

theorem sortDedup_mem (x : Int) (l : List Int) :
    x ∈ sortDedup l ↔ x ∈ l := by
  induction l with
  | nil => exact Iff.rfl
  | cons y ys ih =>
      show x ∈ insertSD y (sortDedup ys) ↔ _
      rw [mem_insertSD, ih]
      simp

theorem sortDedup_chain (l : List Int) :
    List.Chain' (· < ·) (sortDedup l) := by
  induction l with
  | nil => exact List.chain'_nil
  | cons y ys ih => exact chain_insertSD y (sortDedup ys) ih

theorem apInt_succ (a s : Int) (n : Nat) :
    apInt a s (n + 1) = a :: apInt (a + s) s n := by
  unfold apInt
  rw [List.range_succ_eq_map]
  simp only [List.map_cons, List.map_map, Nat.cast_zero, zero_mul, add_zero]
  congr 1
  apply List.map_congr_left
  intro k _
  simp only [Function.comp_apply]
  push_cast
  ring

theorem apInt_length (a s : Int) (n : Nat) : (apInt a s n).length = n := by
  unfold apInt
  rw [List.length_map, List.length_range]

theorem apInt_zero (a s : Int) : apInt a s 0 = [] := rfl

theorem takeRunF_cons_pos (stride e : Int) (xs : List Int) :
    takeRunF stride e ((e + stride) :: xs) =
      ((takeRunF stride (e + stride) xs).1 + 1,
        (takeRunF stride (e + stride) xs).2.1,
        (takeRunF stride (e + stride) xs).2.2) := by
  simp [takeRunF]

theorem takeRunF_cons_neg (stride e x : Int) (xs : List Int)
    (h : ¬ x = e + stride) :
    takeRunF stride e (x :: xs) = (0, e, x :: xs) := by
  simp [takeRunF, h]

theorem takeRunF_decomp (stride : Int) : ∀ (l : List Int) (e : Int),
    l = apInt (e + stride) stride (takeRunF stride e l).1 ++
      (takeRunF stride e l).2.2 ∧
    (takeRunF stride e l).2.1 = e + (takeRunF stride e l).1 * stride := by
  intro l
  induction l with
  | nil => intro e; exact ⟨rfl, by simp [takeRunF]⟩
  | cons x xs ih =>
      intro e
      by_cases h : x = e + stride
      · subst h
        obtain ⟨ih1, ih2⟩ := ih (e + stride)
        rw [takeRunF_cons_pos]
        constructor
        · rw [apInt_succ, List.cons_append]
          exact congrArg _ ih1
        · show (takeRunF stride (e + stride) xs).2.1 = _
          rw [ih2]
          push_cast
          ring
      · rw [takeRunF_cons_neg stride e x xs h]
        exact ⟨by simp [apInt_zero], by simp⟩

/-! ## Codec round-trip, part 2: the greedy fallback is exact -/

theorem tokVals_srng_run (a s : Int) (n : Nat) (hs : 0 < s) :
    tokVals (Tok.srng a (a + ((n : Int) + 1) * s) s) = apInt a s (n + 2) := by
  have hnn : (0 : Int) ≤ ((n : Int) + 1) * s := by positivity
  simp only [tokVals]
  rw [if_neg (by push_neg; constructor <;> omega)]
  congr 1
  rw [show a + ((n : Int) + 1) * s - a = ((n : Int) + 1) * s from by ring]
  have h2 : (((n : Int) + 1) * s).toNat = (n + 1) * s.toNat := by
    obtain ⟨k, rfl⟩ := Int.eq_ofNat_of_zero_le (le_of_lt hs)
    rw [show ((n : Int) + 1) * (k : Int) = (((n + 1) * k : Nat) : Int) from by
      push_cast; ring]
    rw [Int.toNat_natCast, Int.toNat_natCast]
  rw [h2, Nat.mul_div_cancel _ (by omega)]

theorem tokVals_rng (a b : Int) (h : a ≤ b) :
    tokVals (Tok.rng a b) = apInt a 1 ((b - a).toNat + 1) := by
  simp only [tokVals]
  rw [if_neg (by omega)]

theorem greedyF_sound : ∀ (fuel : Nat) (l : List Int), l.length ≤ fuel →
    List.Chain' (· < ·) l → (∀ x ∈ l, 0 ≤ x) →
    ((greedyF fuel l).map tokVals).flatten = l ∧
      ∀ tk ∈ greedyF fuel l, wfTok tk := by
  intro fuel
  induction fuel with
  | zero =>
      intro l hlen _ _
      have h0 : l = [] := List.length_eq_zero.mp (Nat.le_zero.mp hlen)
      subst h0
      exact ⟨rfl, by simp [greedyF]⟩
  | succ f ih =>
      intro l hlen hchain hnn
      match l with
      | [] => exact ⟨rfl, by simp [greedyF]⟩
      | [a] =>
          refine ⟨rfl, ?_⟩
          intro tk htk
          simp only [greedyF, List.mem_singleton] at htk
          subst htk
          exact hnn a (by simp)
      | a :: b :: rest =>
          have hab : a < b := (List.chain'_cons.mp hchain).1
          have hs : 0 < b - a := by omega
          obtain ⟨hdec, hend⟩ := takeRunF_decomp (b - a) rest b
          rcases htr : takeRunF (b - a) b rest with ⟨n, e, r⟩
          rw [htr] at hdec hend
          simp only at hdec hend
          have hgr : greedyF (f + 1) (a :: b :: rest) =
              if n + 2 ≥ 3 then
                (if b - a = 1 then Tok.rng a e
                  else Tok.srng a e (b - a)) :: greedyF f r
              else if b - a = 1 then Tok.rng a b :: greedyF f r
              else Tok.lit a :: greedyF f (b :: rest) := by
            simp only [greedyF, htr]
          have hlen' : rest.length + 2 ≤ f + 1 := by
            simpa using hlen
          by_cases h3 : n + 2 ≥ 3
          · rw [hgr, if_pos h3]
            have hfull : apInt a (b - a) (n + 2) =
                a :: b :: apInt (b + (b - a)) (b - a) n := by
              rw [apInt_succ, apInt_succ, show a + (b - a) = b from by ring]
            have hl : a :: b :: rest = apInt a (b - a) (n + 2) ++ r := by
              rw [hfull, List.cons_append, List.cons_append]
              exact congrArg _ (congrArg _ hdec)
            have hrlen : rest.length = n + r.length := by
              have hc := congrArg List.length hdec
              simpa [apInt_length] using hc
            have hlen2 : r.length ≤ f := by omega
            have hchain2 : List.Chain' (· < ·) r := by
              have hc := hchain
              rw [hl] at hc
              exact (List.chain'_append.mp hc).2.1
            have hnn2 : ∀ x ∈ r, 0 ≤ x := fun x hx =>
              hnn x (by rw [hl]; exact List.mem_append_right _ hx)
            obtain ⟨ihv, ihw⟩ := ih r hlen2 hchain2 hnn2
            have hend' : e = a + ((n : Int) + 1) * (b - a) := by
              rw [hend]; ring
            have htv : tokVals (if b - a = 1 then Tok.rng a e
                else Tok.srng a e (b - a)) = apInt a (b - a) (n + 2) := by
              by_cases h1 : b - a = 1
              · have he2 : e = a + (n : Int) + 1 := by
                  rw [hend', h1]; ring
                rw [if_pos h1, he2, tokVals_rng a _ (by omega), h1]
                congr 1
                omega
              · rw [if_neg h1, hend']
                exact tokVals_srng_run a (b - a) n hs
            refine ⟨?_, ?_⟩
            · simp only [List.map_cons, List.flatten_cons]
              rw [htv, ihv]
              exact hl.symm
            · intro tk htk
              rcases List.mem_cons.mp htk with rfl | htk2
              · have ha0 : 0 ≤ a := hnn a (by simp)
                have hb0 : 0 ≤ e := by
                  have hp : (0 : Int) ≤ ((n : Int) + 1) * (b - a) := by positivity
                  omega
                by_cases h1 : b - a = 1
                · rw [if_pos h1]; exact ⟨ha0, hb0⟩
                · rw [if_neg h1]; exact ⟨ha0, hb0, by omega⟩
              · exact ihw tk htk2
          · have ht0 : n = 0 := by omega
            have hrest : r = rest := by
              have hc := hdec
              rw [ht0, apInt_zero, List.nil_append] at hc
              exact hc.symm
            have hchrest : List.Chain' (· < ·) rest :=
              ((List.chain'_cons.mp hchain).2).tail
            by_cases h1 : b - a = 1
            · rw [hgr, if_neg h3, if_pos h1]
              obtain ⟨ihv, ihw⟩ := ih r (by rw [hrest]; omega)
                (by rw [hrest]; exact hchrest)
                (fun x hx => hnn x (by
                  rw [hrest] at hx
                  exact List.mem_cons_of_mem a (List.mem_cons_of_mem b hx)))
              refine ⟨?_, ?_⟩
              · simp only [List.map_cons, List.flatten_cons]
                rw [ihv, hrest, tokVals_rng a b (le_of_lt hab)]
                rw [show (b - a).toNat + 1 = 2 from by omega]
                rw [apInt_succ, apInt_succ, apInt_zero]
                rw [show a + 1 = b from by omega]
                rfl
              · intro tk htk
                rcases List.mem_cons.mp htk with rfl | htk2
                · exact ⟨hnn a (by simp), hnn b (by simp)⟩
                · exact ihw tk htk2
            · rw [hgr, if_neg h3, if_neg h1]
              obtain ⟨ihv, ihw⟩ := ih (b :: rest) (by simpa using hlen')
                (List.chain'_cons.mp hchain).2
                (fun x hx => hnn x (List.mem_cons_of_mem a hx))
              refine ⟨?_, ?_⟩
              · simp only [List.map_cons, List.flatten_cons]
                rw [ihv]
                rfl
              · intro tk htk
                rcases List.mem_cons.mp htk with rfl | htk2
                · exact hnn a (by simp)
                · exact ihw tk htk2

/-! ## Codec round-trip, part 3: the value-modulo branch is exact -/

theorem cggF_sound (stride : Int) (hs : 0 < stride) :
    ∀ (fuel : Nat) (g : List Int), g.length ≤ fuel → (∀ x ∈ g, 0 ≤ x) →
    ((cggF stride fuel g).map tokVals).flatten = g ∧
      ∀ tk ∈ cggF stride fuel g, wfTok tk := by
  intro fuel
  induction fuel with
  | zero =>
      intro g hlen _
      have h0 : g = [] := List.length_eq_zero.mp (Nat.le_zero.mp hlen)
      subst h0
      exact ⟨rfl, by simp [cggF]⟩
  | succ f ih =>
      intro g hlen hnn
      match g with
      | [] => exact ⟨rfl, by simp [cggF]⟩
      | gh :: gs =>
          obtain ⟨hdec, hend⟩ := takeRunF_decomp stride gs gh
          rcases htr : takeRunF stride gh gs with ⟨n, e, r⟩
          rw [htr] at hdec hend
          simp only at hdec hend
          have hgr : cggF stride (f + 1) (gh :: gs) =
              if n + 1 ≥ 2 then Tok.srng gh e stride :: cggF stride f r
              else Tok.lit gh :: cggF stride f gs := by
            simp only [cggF, htr]
          have hlen' : gs.length + 1 ≤ f + 1 := by simpa using hlen
          by_cases h2 : n + 1 ≥ 2
          · rw [hgr, if_pos h2]
            obtain ⟨m, rfl⟩ : ∃ m, n = m + 1 := ⟨n - 1, by omega⟩
            have hl : gh :: gs = apInt gh stride (m + 1 + 1) ++ r := by
              rw [apInt_succ, List.cons_append]
              exact congrArg _ hdec
            have hrlen : gs.length = (m + 1) + r.length := by
              have hc := congrArg List.length hdec
              simpa [apInt_length] using hc
            obtain ⟨ihv, ihw⟩ := ih r (by omega)
              (fun x hx => hnn x (by rw [hl]; exact List.mem_append_right _ hx))
            have hend' : e = gh + ((m : Int) + 1) * stride := by
              rw [hend]; push_cast; ring
            have htv : tokVals (Tok.srng gh e stride) =
                apInt gh stride (m + 2) := by
              rw [hend']
              exact tokVals_srng_run gh stride m hs
            refine ⟨?_, ?_⟩
            · simp only [List.map_cons, List.flatten_cons]
              rw [htv, ihv]
              exact hl.symm
            · intro tk htk
              rcases List.mem_cons.mp htk with rfl | htk2
              · have ha0 : 0 ≤ gh := hnn gh (by simp)
                have hb0 : 0 ≤ e := by
                  have hp : (0 : Int) ≤ ((m : Int) + 1) * stride := by positivity
                  omega
                exact ⟨ha0, hb0, by omega⟩
              · exact ihw tk htk2
          · rw [hgr, if_neg h2]
            obtain ⟨ihv, ihw⟩ := ih gs (by omega)
              (fun x hx => hnn x (List.mem_cons_of_mem gh hx))
            refine ⟨?_, ?_⟩
            · simp only [List.map_cons, List.flatten_cons]
              rw [ihv]
              rfl
            · intro tk htk
              rcases List.mem_cons.mp htk with rfl | htk2
              · exact hnn gh (by simp)
              · exact ihw tk htk2

theorem modGroupTok_sound (stride : Int) (hs : 0 < stride) (g : List Int)
    (hnn : ∀ x ∈ g, 0 ≤ x) :
    ((modGroupTok stride g).map tokVals).flatten = g ∧
      ∀ tk ∈ modGroupTok stride g, wfTok tk := by
  match g with
  | [] => exact ⟨rfl, by simp [modGroupTok]⟩
  | [g₀] =>
      refine ⟨rfl, ?_⟩
      intro tk htk
      simp only [modGroupTok, List.mem_singleton] at htk
      subst htk
      exact hnn g₀ (by simp)
  | [g₀, g₁] =>
      by_cases h : g₁ - g₀ = stride
      · have hmg : modGroupTok stride [g₀, g₁] = [Tok.srng g₀ g₁ stride] := by
          simp [modGroupTok, h]
        rw [hmg]
        refine ⟨?_, ?_⟩
        · simp only [List.map_cons, List.map_nil, List.flatten_cons,
            List.flatten_nil, List.append_nil]
          simp only [tokVals]
          rw [if_neg (by push_neg; constructor <;> omega)]
          rw [show g₁ - g₀ = stride from h,
            show stride.toNat / stride.toNat + 1 = 2 from by
              rw [Nat.div_self (by omega)]]
          rw [apInt_succ, apInt_succ, apInt_zero,
            show g₀ + stride = g₁ from by omega]
        · intro tk htk
          simp only [List.mem_singleton] at htk
          subst htk
          exact ⟨hnn g₀ (by simp), hnn g₁ (by simp), by omega⟩
      · have hmg : modGroupTok stride [g₀, g₁] = [Tok.lit g₀, Tok.lit g₁] := by
          simp [modGroupTok, h]
        rw [hmg]
        refine ⟨rfl, ?_⟩
        intro tk htk
        rcases List.mem_cons.mp htk with rfl | htk2
        · exact hnn g₀ (by simp)
        · simp only [List.mem_singleton] at htk2
          subst htk2
          exact hnn g₁ (by simp)
  | g₀ :: g₁ :: g₂ :: gs =>
      exact cggF_sound stride hs _ _ le_rfl hnn

theorem modGroups_sound (l : List Int) (stride : Int) (hs : 0 < stride)
    (hnn : ∀ x ∈ l, 0 ≤ x) :
    (∀ x, x ∈ ((modGroups l stride).map tokVals).flatten ↔ x ∈ l) ∧
      ∀ tk ∈ modGroups l stride, wfTok tk := by
  constructor
  · intro x
    unfold modGroups
    constructor
    · intro hx
      rw [List.mem_flatten] at hx
      obtain ⟨vs, hvs, hxvs⟩ := hx
      rw [List.mem_map] at hvs
      obtain ⟨tk, htk, rfl⟩ := hvs
      rw [List.mem_flatten] at htk
      obtain ⟨toks, htoks, htktoks⟩ := htk
      rw [List.mem_map] at htoks
      obtain ⟨m, hm, rfl⟩ := htoks
      have hgs := modGroupTok_sound stride hs
        (l.filter (fun i => decide (i % stride = m)))
        (fun y hy => hnn y (List.mem_of_mem_filter hy))
      have hxg : x ∈ l.filter (fun i => decide (i % stride = m)) := by
        rw [← hgs.1, List.mem_flatten]
        exact ⟨tokVals tk, List.mem_map_of_mem _ htktoks, hxvs⟩
      exact List.mem_of_mem_filter hxg
    · intro hx
      have hm : x % stride ∈ sortDedup (l.map (fun i => i % stride)) := by
        rw [sortDedup_mem]
        exact List.mem_map_of_mem _ hx
      have hxg : x ∈ l.filter (fun i => decide (i % stride = x % stride)) :=
        List.mem_filter.mpr ⟨hx, by simp⟩
      have hgs := modGroupTok_sound stride hs
        (l.filter (fun i => decide (i % stride = x % stride)))
        (fun y hy => hnn y (List.mem_of_mem_filter hy))
      rw [← hgs.1, List.mem_flatten] at hxg
      obtain ⟨vs, hvs, hxvs⟩ := hxg
      rw [List.mem_map] at hvs
      obtain ⟨tk, htk, rfl⟩ := hvs
      rw [List.mem_flatten]
      refine ⟨tokVals tk, ?_, hxvs⟩
      rw [List.mem_map]
      refine ⟨tk, ?_, rfl⟩
      rw [List.mem_flatten]
      refine ⟨modGroupTok stride
        (l.filter (fun i => decide (i % stride = x % stride))), ?_, htk⟩
      exact List.mem_map_of_mem _ hm
  · intro tk htk
    unfold modGroups at htk
    rw [List.mem_flatten] at htk
    obtain ⟨toks, htoks, htktoks⟩ := htk
    rw [List.mem_map] at htoks
    obtain ⟨m, hm, rfl⟩ := htoks
    exact (modGroupTok_sound stride hs _
      (fun y hy => hnn y (List.mem_of_mem_filter hy))).2 tk htktoks

theorem tryStrides_spec (l : List Int) : ∀ (strides : List Int)
    (toks : List Tok), tryStrides l strides = some toks →
    ∃ s ∈ strides, toks = modGroups l s := by
  intro strides
  induction strides with
  | nil => intro toks h; exact absurd h (by simp [tryStrides])
  | cons s rest ih =>
      intro toks h
      rw [tryStrides] at h
      split_ifs at h with h1 h2
      · obtain ⟨s', hs', ht⟩ := ih toks h
        exact ⟨s', List.mem_cons_of_mem s hs', ht⟩
      · obtain ⟨s', hs', ht⟩ := ih toks h
        exact ⟨s', List.mem_cons_of_mem s hs', ht⟩
      · simp only at h
        split_ifs at h with h3
        · exact ⟨s, List.mem_cons_self s rest, by
            injection h with h4
            exact h4.symm⟩
        · obtain ⟨s', hs', ht⟩ := ih toks h
          exact ⟨s', List.mem_cons_of_mem s hs', ht⟩

/-! ## Codec round-trip, part 4: the periodic-lane branch -/

theorem findPeriodIn_spec : ∀ (ps : List Nat) (gaps : List Int),
    findPeriodIn ps gaps ≠ 0 →
    findPeriodIn ps gaps ∈ ps ∧
      2 * findPeriodIn ps gaps + 1 ≤ gaps.length ∧
      gapsPeriodic gaps (findPeriodIn ps gaps) = true := by
  intro ps
  induction ps with
  | nil => intro gaps h; exact absurd rfl h
  | cons p rest ih =>
      intro gaps h
      rw [findPeriodIn] at h ⊢
      by_cases hc : (decide (2 * p + 1 ≤ gaps.length) && gapsPeriodic gaps p)
          = true
      · rw [if_pos hc] at h ⊢
        simp only [Bool.and_eq_true, decide_eq_true_eq] at hc
        exact ⟨List.mem_cons_self p rest, hc.1, hc.2⟩
      · rw [if_neg hc] at h ⊢
        obtain ⟨h1, h2, h3⟩ := ih gaps h
        exact ⟨List.mem_cons_of_mem p h1, h2, h3⟩

theorem gapsPeriodic_getD (gaps : List Int) (p : Nat) (_hp : 0 < p)
    (h : gapsPeriodic gaps p = true) :
    ∀ i < gaps.length, gaps.getD i 0 = gaps.getD (i % p) 0 := by
  intro i hi
  unfold gapsPeriodic at h
  rw [List.all_eq_true] at h
  have h2 := h i (List.mem_range.mpr hi)
  simp only [Bool.or_eq_true, decide_eq_true_eq, beq_iff_eq] at h2
  rcases h2 with h2 | h2
  · rw [Nat.mod_eq_of_lt h2]
  · exact h2

theorem gapsOf_length (l : List Int) : (gapsOf l).length = l.length - 1 := by
  unfold gapsOf
  rw [List.length_zipWith, List.length_tail]
  omega

theorem gapsOf_getD (l : List Int) (i : Nat) (hi : i + 1 < l.length) :
    (gapsOf l).getD i 0 = l.getD (i + 1) 0 - l.getD i 0 := by
  have hg : i < (gapsOf l).length := by rw [gapsOf_length]; omega
  have hit : i < l.tail.length := by rw [List.length_tail]; omega
  rw [List.getD_eq_getElem _ _ hg,
    List.getD_eq_getElem _ _ (show i < l.length by omega),
    List.getD_eq_getElem _ _ hi]
  show (List.zipWith (fun a b => b - a) l l.tail)[i] = _
  rw [List.getElem_zipWith]
  congr 1
  rw [List.getElem_tail]

theorem getD_sub_sum (l : List Int) : ∀ (k : Nat), k < l.length →
    l.getD k 0 = l.getD 0 0 + ((gapsOf l).take k).sum := by
  intro k
  induction k with
  | zero => intro h; simp
  | succ m ih =>
      intro h
      have hm : m < l.length := by omega
      have hgap := gapsOf_getD l m (by omega)
      have hb : m < (gapsOf l).length := by rw [gapsOf_length]; omega
      have htake : ((gapsOf l).take (m + 1)).sum =
          ((gapsOf l).take m).sum + (gapsOf l).getD m 0 := by
        rw [List.take_succ, List.sum_append]
        congr 1
        rw [List.getElem?_eq_getElem hb, List.getD_eq_getElem _ _ hb]
        simp
      have hih := ih hm
      omega

theorem periodic_step (l : List Int) (p : Nat) (hp : 0 < p)
    (hper : gapsPeriodic (gapsOf l) p = true) :
    ∀ j, j + p < l.length →
      l.getD (j + p) 0 = l.getD j 0 + ((gapsOf l).take p).sum := by
  intro j
  induction j with
  | zero =>
      intro h
      have hb := getD_sub_sum l p (by omega)
      simpa using hb
  | succ m ih =>
      intro h
      have hm : m + p < l.length := by omega
      have ihm := ih hm
      have hg1 := gapsOf_getD l (m + p) (by omega)
      have hg2 := gapsOf_getD l m (by omega)
      have hper1 := gapsPeriodic_getD (gapsOf l) p hp hper (m + p)
        (by rw [gapsOf_length]; omega)
      have hper2 := gapsPeriodic_getD (gapsOf l) p hp hper m
        (by rw [gapsOf_length]; omega)
      have hmod : (m + p) % p = m % p := Nat.add_mod_right m p
      have heq : (gapsOf l).getD (m + p) 0 = (gapsOf l).getD m 0 := by
        rw [hper1, hmod, ← hper2]
      have hidx : m + 1 + p = m + p + 1 := by omega
      rw [hidx]
      omega

theorem rangeStepF_stable (step : Nat) (hstep : 0 < step) :
    ∀ (f₁ f₂ start stop : Nat),
    stop - start ≤ f₁ → stop - start ≤ f₂ →
    rangeStepF f₁ start stop step = rangeStepF f₂ start stop step := by
  intro f₁
  induction f₁ with
  | zero =>
      intro f₂ start stop h1 h2
      have hss : ¬ start < stop := by omega
      cases f₂ with
      | zero => rfl
      | succ g => simp [rangeStepF, hss]
  | succ f ih =>
      intro f₂ start stop h1 h2
      by_cases hss : start < stop
      · cases f₂ with
        | zero => omega
        | succ g =>
            simp only [rangeStepF, if_pos hss]
            congr 1
            exact ih g (start + step) stop (by omega) (by omega)
      · cases f₂ with
        | zero => simp [rangeStepF, hss]
        | succ g => simp [rangeStepF, hss]

theorem rangeStep_unfold (start stop step : Nat) (hstep : 0 < step) :
    rangeStep start stop step =
      if start < stop then start :: rangeStep (start + step) stop step
      else [] := by
  unfold rangeStep
  by_cases hss : start < stop
  · rw [if_pos hss]
    show rangeStepF (stop + 1) start stop step = _
    rw [rangeStepF, if_pos hss]
    congr 1
    exact rangeStepF_stable step hstep stop (stop + 1) (start + step) stop
      (by omega) (by omega)
  · rw [if_neg hss]
    show rangeStepF (stop + 1) start stop step = []
    rw [rangeStepF, if_neg hss]

theorem lane_unfold (l : List Int) (p o : Nat) (hp : 0 < p) :
    lane l p o =
      if o < l.length then l.getD o 0 :: lane l p (o + p) else [] := by
  unfold lane
  rw [rangeStep_unfold _ _ _ hp]
  by_cases ho : o < l.length
  · rw [if_pos ho, if_pos ho]
    rw [List.filterMap_cons]
    have hsome : l[o]? = some (l.getD o 0) := by
      rw [List.getElem?_eq_getElem ho, List.getD_eq_getElem _ _ ho]
    rw [hsome]
  · rw [if_neg ho, if_neg ho]
    rfl

theorem lane_ap (l : List Int) (p : Nat) (hp : 0 < p) (ts : Int)
    (hstep : ∀ j, j + p < l.length →
      l.getD (j + p) 0 = l.getD j 0 + ts) :
    ∀ (d o : Nat), l.length ≤ o + d → o < l.length →
      ∃ k, lane l p o = apInt (l.getD o 0) ts (k + 1) := by
  intro d
  induction d with
  | zero => intro o h1 h2; omega
  | succ m ih =>
      intro o h1 h2
      rw [lane_unfold l p o hp, if_pos h2]
      by_cases hop : o + p < l.length
      · obtain ⟨k, hk⟩ := ih (o + p) (by omega) hop
        refine ⟨k + 1, ?_⟩
        rw [apInt_succ, hk, hstep o hop]
      · refine ⟨0, ?_⟩
        rw [lane_unfold l p (o + p) hp, if_neg hop, apInt_succ, apInt_zero]

theorem lane_subset (l : List Int) (p : Nat) (hp : 0 < p) : ∀ (d o : Nat),
    l.length ≤ o + d → ∀ x ∈ lane l p o, x ∈ l := by
  intro d
  induction d with
  | zero =>
      intro o h1 x hx
      rw [lane_unfold l p o hp, if_neg (by omega)] at hx
      simp at hx
  | succ m ih =>
      intro o h1 x hx
      by_cases ho : o < l.length
      · rw [lane_unfold l p o hp, if_pos ho] at hx
        rcases List.mem_cons.mp hx with rfl | hx2
        · rw [List.getD_eq_getElem _ _ ho]
          exact List.getElem_mem ho
        · exact ih (o + p) (by omega) x hx2
      · rw [lane_unfold l p o hp, if_neg ho] at hx
        simp at hx

theorem mem_lane_self (l : List Int) (p : Nat) (hp : 0 < p) :
    ∀ (d o i : Nat), l.length ≤ o + d → o ≤ i → i < l.length →
      p ∣ (i - o) → l.getD i 0 ∈ lane l p o := by
  intro d
  induction d with
  | zero => intro o i h1 h2 h3 _; omega
  | succ m ih =>
      intro o i h1 h2 h3 h4
      have ho : o < l.length := by omega
      rw [lane_unfold l p o hp, if_pos ho]
      by_cases hio : i = o
      · subst hio
        exact List.mem_cons_self _ _
      · obtain ⟨q, hq⟩ := h4
        cases q with
        | zero => omega
        | succ q₂ =>
            rw [Nat.mul_succ] at hq
            have hop : o + p ≤ i := by omega
            refine List.mem_cons_of_mem _
              (ih (o + p) i (by omega) (by omega) h3 ⟨q₂, by omega⟩)

theorem apInt_getLastD : ∀ (n : Nat) (a s d : Int),
    (apInt a s (n + 1)).getLastD d = a + (n : Int) * s := by
  intro n
  induction n with
  | zero =>
      intro a s d
      rw [apInt_succ, apInt_zero]
      simp
  | succ m ih =>
      intro a s d
      rw [apInt_succ, List.getLastD_cons, ih (a + s) s a]
      push_cast
      ring

theorem laneTok_vals (ts : Int) (hts : 0 < ts) (a : Int) (ha : 0 ≤ a) :
    ∀ k : Nat,
      ((laneTok ts (apInt a ts (k + 1))).map tokVals).flatten =
        apInt a ts (k + 1) ∧
      ∀ tk ∈ laneTok ts (apInt a ts (k + 1)), wfTok tk := by
  intro k
  match k with
  | 0 =>
      rw [apInt_succ, apInt_zero]
      refine ⟨rfl, ?_⟩
      intro tk htk
      simp only [laneTok, List.mem_singleton] at htk
      subst htk
      exact ha
  | 1 =>
      have h2 : apInt a ts 2 = [a, a + ts] := by
        rw [apInt_succ, apInt_succ, apInt_zero]
      rw [h2]
      by_cases h1 : a + ts = a + 1
      · have hmg : laneTok ts [a, a + ts] = [Tok.rng a (a + ts)] := by
          simp [laneTok, h1]
        rw [hmg]
        refine ⟨?_, ?_⟩
        · simp only [List.map_cons, List.map_nil, List.flatten_cons,
            List.flatten_nil, List.append_nil]
          rw [tokVals_rng a _ (by omega),
            show (a + ts - a).toNat + 1 = 2 from by omega,
            apInt_succ, apInt_succ, apInt_zero,
            show a + 1 = a + ts from by omega]
        · intro tk htk
          simp only [List.mem_singleton] at htk
          subst htk
          exact ⟨ha, by omega⟩
      · have hmg : laneTok ts [a, a + ts] = [Tok.lit a, Tok.lit (a + ts)] := by
          simp [laneTok, h1]
        rw [hmg]
        refine ⟨rfl, ?_⟩
        intro tk htk
        rcases List.mem_cons.mp htk with rfl | htk2
        · exact ha
        · simp only [List.mem_singleton] at htk2
          subst htk2
          show (0 : Int) ≤ a + ts
          omega
  | m + 2 =>
      have h3 : apInt a ts (m + 3) =
          a :: (a + ts) :: (a + ts + ts) :: apInt (a + ts + ts + ts) ts m := by
        rw [apInt_succ, apInt_succ, apInt_succ]
      have htail : (a + ts) :: (a + ts + ts) :: apInt (a + ts + ts + ts) ts m =
          apInt (a + ts) ts (m + 2) := by
        rw [apInt_succ, apInt_succ]
      have he : ((a + ts) :: (a + ts + ts) ::
          apInt (a + ts + ts + ts) ts m).getLastD (a + ts) =
          a + ((m : Int) + 2) * ts := by
        rw [htail, apInt_getLastD]
        push_cast
        ring
      have hlt : laneTok ts (apInt a ts (m + 3)) =
          if ts = 1 then [Tok.rng a (a + ((m : Int) + 2) * ts)]
          else [Tok.srng a (a + ((m : Int) + 2) * ts) ts] := by
        rw [h3]
        simp only [laneTok]
        rw [he]
      have hple : (0 : Int) ≤ ((m : Int) + 2) * ts := by positivity
      rw [hlt]
      by_cases h1 : ts = 1
      · rw [if_pos h1]
        subst h1
        refine ⟨?_, ?_⟩
        · simp only [mul_one, List.map_cons, List.map_nil, List.flatten_cons,
            List.flatten_nil, List.append_nil]
          rw [tokVals_rng a _ (by omega)]
          congr 1
          omega
        · intro tk htk
          simp only [mul_one, List.mem_singleton] at htk
          subst htk
          exact ⟨ha, by omega⟩
      · rw [if_neg h1]
        have hsr : tokVals (Tok.srng a (a + ((m : Int) + 2) * ts) ts) =
            apInt a ts (m + 3) := by
          rw [show ((m : Int) + 2) = ((m + 1 : Nat) : Int) + 1 from by
            push_cast; ring]
          exact tokVals_srng_run a ts (m + 1) hts
        refine ⟨?_, ?_⟩
        · simp only [List.map_cons, List.map_nil, List.flatten_cons,
            List.flatten_nil, List.append_nil]
          rw [hsr]
        · intro tk htk
          simp only [List.mem_singleton] at htk
          subst htk
          exact ⟨ha, by omega, by omega⟩

theorem laneToks_sound (l : List Int) (p : Nat) (hp2 : 2 ≤ p)
    (hlen : 2 * p + 1 ≤ (gapsOf l).length)
    (hper : gapsPeriodic (gapsOf l) p = true)
    (hchain : List.Chain' (· < ·) l) (hnn : ∀ x ∈ l, 0 ≤ x) :
    (∀ x, x ∈ ((laneToks l p ((gapsOf l).take p).sum).map tokVals).flatten
      ↔ x ∈ l) ∧
    ∀ tk ∈ laneToks l p ((gapsOf l).take p).sum, wfTok tk := by
  have hp : 0 < p := by omega
  have hll : 2 * p + 2 ≤ l.length := by
    have hg := gapsOf_length l
    omega
  have hstep := periodic_step l p hp hper
  have hts : 0 < ((gapsOf l).take p).sum := by
    have h0 := hstep 0 (by omega)
    have hmono : l.getD 0 0 < l.getD p 0 := by
      have hpair := List.chain'_iff_pairwise.mp hchain
      rw [List.pairwise_iff_getElem] at hpair
      have hlt := hpair 0 p (by omega) (by omega) (by omega)
      rw [List.getD_eq_getElem _ _ (show (0 : Nat) < l.length by omega),
        List.getD_eq_getElem _ _ (show p < l.length by omega)]
      exact hlt
    simp only [Nat.zero_add] at h0
    omega
  have hnnD : ∀ o, o < l.length → 0 ≤ l.getD o 0 := by
    intro o ho
    rw [List.getD_eq_getElem _ _ ho]
    exact hnn _ (List.getElem_mem ho)
  constructor
  · intro x
    constructor
    · intro hx
      unfold laneToks at hx
      rw [List.mem_flatten] at hx
      obtain ⟨vs, hvs, hxvs⟩ := hx
      rw [List.mem_map] at hvs
      obtain ⟨tk, htk, rfl⟩ := hvs
      rw [List.mem_flatten] at htk
      obtain ⟨toks, htoks, htktoks⟩ := htk
      rw [List.mem_map] at htoks
      obtain ⟨o, ho, rfl⟩ := htoks
      rw [List.mem_range] at ho
      have hol : o < l.length := by omega
      obtain ⟨k, hk⟩ := lane_ap l p hp _ hstep l.length o (by omega) hol
      have hvals := laneTok_vals _ hts (l.getD o 0) (hnnD o hol) k
      rw [hk] at htktoks
      have hxlane : x ∈ lane l p o := by
        rw [hk, ← hvals.1, List.mem_flatten]
        exact ⟨tokVals tk, List.mem_map_of_mem _ htktoks, hxvs⟩
      exact lane_subset l p hp l.length o (by omega) x hxlane
    · intro hx
      obtain ⟨i, hi, hxi⟩ := List.getElem_of_mem hx
      have hgd : l.getD i 0 = x := by
        rw [List.getD_eq_getElem _ _ hi]
        exact hxi
      have hxlane : l.getD i 0 ∈ lane l p (i % p) := by
        apply mem_lane_self l p hp l.length (i % p) i (by omega)
          (Nat.mod_le i p) hi
        have hdm : i % p + p * (i / p) = i := Nat.mod_add_div i p
        exact ⟨i / p, by omega⟩
      have hmp : i % p < p := Nat.mod_lt i hp
      have holp : i % p < l.length := by omega
      obtain ⟨k, hk⟩ := lane_ap l p hp _ hstep l.length (i % p)
        (by omega) holp
      have hvals := laneTok_vals _ hts (l.getD (i % p) 0) (hnnD _ holp) k
      rw [hk, ← hvals.1, List.mem_flatten] at hxlane
      obtain ⟨vs, hvs, hxvs⟩ := hxlane
      rw [List.mem_map] at hvs
      obtain ⟨tk, htk, rfl⟩ := hvs
      unfold laneToks
      rw [List.mem_flatten]
      refine ⟨tokVals tk, ?_, by rw [← hgd]; exact hxvs⟩
      rw [List.mem_map]
      refine ⟨tk, ?_, rfl⟩
      rw [List.mem_flatten]
      refine ⟨laneTok ((gapsOf l).take p).sum (lane l p (i % p)), ?_, ?_⟩
      · exact List.mem_map_of_mem _ (List.mem_range.mpr hmp)
      · rw [hk]
        exact htk
  · intro tk htk
    unfold laneToks at htk
    rw [List.mem_flatten] at htk
    obtain ⟨toks, htoks, htktoks⟩ := htk
    rw [List.mem_map] at htoks
    obtain ⟨o, ho, rfl⟩ := htoks
    rw [List.mem_range] at ho
    have hol : o < l.length := by omega
    obtain ⟨k, hk⟩ := lane_ap l p hp _ hstep l.length o (by omega) hol
    rw [hk] at htktoks
    exact (laneTok_vals _ hts (l.getD o 0) (hnnD o hol) k).2 tk htktoks

/-! ## Codec round-trip, part 5: the whole token-level compressor -/

theorem strideOrGreedy_sound (l : List Int)
    (hchain : List.Chain' (· < ·) l) (hnn : ∀ x ∈ l, 0 ≤ x) :
    (∀ x, x ∈ (((match tryStrides l [10, 5, 2] with
        | some toks => toks
        | none => greedy l) : List Tok).map tokVals).flatten ↔ x ∈ l) ∧
    ∀ tk ∈ (match tryStrides l [10, 5, 2] with
        | some toks => toks
        | none => greedy l), wfTok tk := by
  cases hts : tryStrides l [10, 5, 2] with
  | some toks =>
      obtain ⟨s, hsmem, rfl⟩ := tryStrides_spec l [10, 5, 2] toks hts
      have hs : 0 < s := by
        simp only [List.mem_cons, List.not_mem_nil, or_false] at hsmem
        rcases hsmem with rfl | rfl | rfl <;> norm_num
      exact modGroups_sound l s hs hnn
  | none =>
      have hg := greedyF_sound l.length l le_rfl hchain hnn
      refine ⟨fun x => ?_, hg.2⟩
      rw [show greedy l = greedyF l.length l from rfl, hg.1]

theorem compressTokens_sound (l : List Int)
    (hchain : List.Chain' (· < ·) l) (hnn : ∀ x ∈ l, 0 ≤ x) :
    (∀ x, x ∈ ((compressTokens l).map tokVals).flatten ↔ x ∈ l) ∧
      ∀ tk ∈ compressTokens l, wfTok tk := by
  match l with
  | [] => exact ⟨fun x => Iff.rfl, by simp [compressTokens]⟩
  | [a] =>
      refine ⟨fun x => Iff.rfl, ?_⟩
      intro tk htk
      simp only [compressTokens, List.mem_singleton] at htk
      subst htk
      exact hnn a (by simp)
  | [a, b] =>
      have hab : a < b := (List.chain'_cons.mp hchain).1
      by_cases h1 : b = a + 1
      · have hct : compressTokens [a, b] = [Tok.rng a b] := by
          simp [compressTokens, h1]
        rw [hct]
        refine ⟨?_, ?_⟩
        · intro x
          simp only [List.map_cons, List.map_nil, List.flatten_cons,
            List.flatten_nil, List.append_nil]
          rw [tokVals_rng a b (by omega),
            show (b - a).toNat + 1 = 2 from by omega,
            apInt_succ, apInt_succ, apInt_zero,
            show a + 1 = b from by omega]
        · intro tk htk
          simp only [List.mem_singleton] at htk
          subst htk
          exact ⟨hnn a (by simp), hnn b (by simp)⟩
      · have hct : compressTokens [a, b] = [Tok.lit a, Tok.lit b] := by
          simp [compressTokens, h1]
        rw [hct]
        refine ⟨fun x => Iff.rfl, ?_⟩
        intro tk htk
        rcases List.mem_cons.mp htk with rfl | htk2
        · exact hnn a (by simp)
        · simp only [List.mem_singleton] at htk2
          subst htk2
          exact hnn b (by simp)
  | a :: b :: c :: tl =>
      by_cases hsame : allSameGaps (gapsOf (a :: b :: c :: tl)) = true
      · have hred : compressTokens (a :: b :: c :: tl) =
            (match tryStrides (a :: b :: c :: tl) [10, 5, 2] with
             | some toks => toks
             | none => greedy (a :: b :: c :: tl)) := by
          simp only [compressTokens]
          rw [if_pos hsame, if_neg (show ¬ (1 : Nat) < 0 by omega)]
        rw [hred]
        exact strideOrGreedy_sound (a :: b :: c :: tl) hchain hnn
      · by_cases hpg : 1 < detectPeriod (gapsOf (a :: b :: c :: tl))
        · have hred : compressTokens (a :: b :: c :: tl) =
              laneToks (a :: b :: c :: tl)
                (detectPeriod (gapsOf (a :: b :: c :: tl)))
                (((gapsOf (a :: b :: c :: tl)).take
                  (detectPeriod (gapsOf (a :: b :: c :: tl)))).sum) := by
            simp only [compressTokens]
            rw [if_neg hsame, if_pos hpg]
          rw [hred]
          have hne : detectPeriod (gapsOf (a :: b :: c :: tl)) ≠ 0 := by omega
          obtain ⟨hmem, hplen, hper⟩ := findPeriodIn_spec [2, 3, 4, 5] _ hne
          exact laneToks_sound _ _ (by omega) hplen hper hchain hnn
        · have hred : compressTokens (a :: b :: c :: tl) =
              (match tryStrides (a :: b :: c :: tl) [10, 5, 2] with
               | some toks => toks
               | none => greedy (a :: b :: c :: tl)) := by
            simp only [compressTokens]
            rw [if_neg hsame, if_neg hpg]
          rw [hred]
          exact strideOrGreedy_sound (a :: b :: c :: tl) hchain hnn

/-! ## Codec round-trip, part 6: rendering then parsing is the identity -/

theorem intRepr_ne_nil (n : Int) : intRepr n ≠ [] := by
  unfold intRepr
  split
  · simp
  · exact natToChars_ne_nil _

theorem renderTok_ne_nil (t : Tok) : renderTok t ≠ [] := by
  cases t with
  | lit a => exact intRepr_ne_nil a
  | rng a b =>
      intro h
      simp only [renderTok, List.append_eq_nil] at h
      exact (List.cons_ne_nil _ _) h.2
  | srng a b s =>
      intro h
      simp only [renderTok, List.append_eq_nil] at h
      exact (List.cons_ne_nil _ _) h.2

theorem renderTok_chars (t : Tok) :
    ∀ c ∈ renderTok t, c.isDigit = true ∨ c = '-' ∨ c = ':' := by
  cases t with
  | lit a =>
      intro c hc
      rcases intRepr_chars a c hc with h | h
      · exact Or.inl h
      · exact Or.inr (Or.inl h)
  | rng a b =>
      intro c hc
      simp only [renderTok, List.mem_append, List.mem_cons] at hc
      rcases hc with hc | hc | hc
      · rcases intRepr_chars a c hc with h | h
        · exact Or.inl h
        · exact Or.inr (Or.inl h)
      · exact Or.inr (Or.inl hc)
      · rcases intRepr_chars b c hc with h | h
        · exact Or.inl h
        · exact Or.inr (Or.inl h)
  | srng a b s =>
      intro c hc
      simp only [renderTok, List.mem_append, List.mem_cons] at hc
      rcases hc with (hc | hc | hc) | hc | hc
      · rcases intRepr_chars a c hc with h | h
        · exact Or.inl h
        · exact Or.inr (Or.inl h)
      · exact Or.inr (Or.inl hc)
      · rcases intRepr_chars b c hc with h | h
        · exact Or.inl h
        · exact Or.inr (Or.inl h)
      · exact Or.inr (Or.inr hc)
      · rcases intRepr_chars s c hc with h | h
        · exact Or.inl h
        · exact Or.inr (Or.inl h)

theorem renderTok_no_comma (t : Tok) : ∀ c ∈ renderTok t, c ≠ ',' := by
  intro c hc
  rcases renderTok_chars t c hc with hd | rfl | rfl
  · exact (isDigit_ne_special c hd).2.2.2
  · decide
  · decide

theorem splitOnCh_no_sep (sep : Char) : ∀ (p : List Char),
    (∀ c ∈ p, c ≠ sep) → splitOnCh sep p = [p] := by
  intro p
  induction p with
  | nil => intro; rfl
  | cons c cs ih =>
      intro h
      have hc : c ≠ sep := h c (List.mem_cons_self c cs)
      show splitOnCh sep (c :: cs) = [c :: cs]
      rw [splitOnCh, if_neg hc,
        ih (fun d hd => h d (List.mem_cons_of_mem c hd))]

theorem splitOnCh_joinCh (sep : Char) : ∀ (parts : List (List Char)),
    parts ≠ [] → (∀ p ∈ parts, ∀ c ∈ p, c ≠ sep) →
    splitOnCh sep (joinCh sep parts) = parts := by
  intro parts
  induction parts with
  | nil => intro h _; exact absurd rfl h
  | cons p ps ih =>
      intro _ h
      cases ps with
      | nil => exact splitOnCh_no_sep sep p (h p (List.mem_cons_self p []))
      | cons p₂ ps₂ =>
          show splitOnCh sep (p ++ sep :: joinCh sep (p₂ :: ps₂)) = _
          rw [splitOnCh_append sep p _ (h p (List.mem_cons_self p _)),
            ih (by simp) (fun q hq => h q (List.mem_cons_of_mem p hq))]

theorem takeWhile_digits_append (r : List Char)
    (hr : ∀ c ∈ r.take 1, c.isDigit = false) : ∀ (ds : List Char),
    (∀ c ∈ ds, c.isDigit = true) →
    (ds ++ r).takeWhile Char.isDigit = ds ∧
      (ds ++ r).dropWhile Char.isDigit = r := by
  intro ds
  induction ds with
  | nil =>
      intro _
      simp only [List.nil_append]
      cases r with
      | nil => exact ⟨rfl, rfl⟩
      | cons c cs =>
          have hc : c.isDigit = false := hr c (by simp)
          exact ⟨by simp [List.takeWhile_cons, hc],
            by simp [List.dropWhile_cons, hc]⟩
  | cons d ds₂ ih =>
      intro hd
      have hdd : d.isDigit = true := hd d (by simp)
      obtain ⟨ih1, ih2⟩ := ih (fun c hc => hd c (List.mem_cons_of_mem d hc))
      constructor
      · show (d :: (ds₂ ++ r)).takeWhile _ = _
        simp [List.takeWhile_cons, hdd, ih1]
      · show (d :: (ds₂ ++ r)).dropWhile _ = _
        simp [List.dropWhile_cons, hdd, ih2]

theorem intRepr_nonneg_eq (n : Int) (h : 0 ≤ n) :
    intRepr n = natToChars n.toNat := by
  unfold intRepr
  rw [if_neg (by omega)]

theorem parseTok_renderTok (t : Tok) (hwf : wfTok t) :
    parseTokCh (renderTok t) = some t := by
  cases t with
  | lit a =>
      have ha : 0 ≤ a := hwf
      show parseTokCh (intRepr a) = some (Tok.lit a)
      rw [intRepr_nonneg_eq a ha]
      have hsp := takeWhile_digits_append [] (by simp) (natToChars a.toNat)
        (natToChars_digits _)
      rw [List.append_nil] at hsp
      rw [parseTokCh, hsp.1, hsp.2, parseDigits_natToChars]
      show some (Tok.lit ((a.toNat : Nat) : Int)) = some (Tok.lit a)
      rw [Int.toNat_of_nonneg ha]
  | rng a b =>
      obtain ⟨ha, hb⟩ := hwf
      show parseTokCh (intRepr a ++ '-' :: intRepr b) = some (Tok.rng a b)
      rw [intRepr_nonneg_eq a ha, intRepr_nonneg_eq b hb]
      have hsp := takeWhile_digits_append ('-' :: natToChars b.toNat)
        (by intro c hc; simp at hc; subst hc; decide)
        (natToChars a.toNat) (natToChars_digits _)
      rw [parseTokCh, hsp.1, hsp.2, parseDigits_natToChars]
      show parseTokDash a.toNat (natToChars b.toNat) = some (Tok.rng a b)
      have hsp₂ := takeWhile_digits_append [] (by simp) (natToChars b.toNat)
        (natToChars_digits _)
      rw [List.append_nil] at hsp₂
      rw [parseTokDash, hsp₂.1, hsp₂.2, parseDigits_natToChars]
      show some (Tok.rng ((a.toNat : Nat) : Int) ((b.toNat : Nat) : Int)) =
        some (Tok.rng a b)
      rw [Int.toNat_of_nonneg ha, Int.toNat_of_nonneg hb]
  | srng a b s =>
      obtain ⟨ha, hb, hs⟩ := hwf
      show parseTokCh ((intRepr a ++ '-' :: intRepr b) ++ ':' :: intRepr s) =
        some (Tok.srng a b s)
      rw [intRepr_nonneg_eq a ha, intRepr_nonneg_eq b hb,
        intRepr_nonneg_eq s (by omega), List.append_assoc, List.cons_append]
      have hsp := takeWhile_digits_append
        ('-' :: (natToChars b.toNat ++ ':' :: natToChars s.toNat))
        (by intro c hc; simp at hc; subst hc; decide)
        (natToChars a.toNat) (natToChars_digits _)
      rw [parseTokCh, hsp.1, hsp.2, parseDigits_natToChars]
      show parseTokDash a.toNat (natToChars b.toNat ++ ':' :: natToChars s.toNat)
        = some (Tok.srng a b s)
      have hsp₂ := takeWhile_digits_append (':' :: natToChars s.toNat)
        (by intro c hc; simp at hc; subst hc; decide)
        (natToChars b.toNat) (natToChars_digits _)
      rw [parseTokDash, hsp₂.1, hsp₂.2, parseDigits_natToChars]
      show parseStride a.toNat b.toNat (natToChars s.toNat) =
        some (Tok.srng a b s)
      rw [parseStride, parseDigits_natToChars]
      show (if s.toNat = 0 then none
        else some (Tok.srng ((a.toNat : Nat) : Int) ((b.toNat : Nat) : Int)
          ((s.toNat : Nat) : Int))) = some (Tok.srng a b s)
      rw [if_neg (by omega), Int.toNat_of_nonneg ha, Int.toNat_of_nonneg hb,
        Int.toNat_of_nonneg (by omega : (0 : Int) ≤ s)]

theorem parseAllToks_renderToks : ∀ (ts : List Tok), (∀ t ∈ ts, wfTok t) →
    parseAllToks (ts.map renderTok) = some ts := by
  intro ts
  induction ts with
  | nil => intro; rfl
  | cons t ts₂ ih =>
      intro hwf
      show parseAllToks (renderTok t :: ts₂.map renderTok) = some (t :: ts₂)
      rw [parseAllToks, parseTok_renderTok t (hwf t (List.mem_cons_self t ts₂)),
        ih (fun u hu => hwf u (List.mem_cons_of_mem t hu))]

theorem renderToks_ne_nil (t : Tok) (ts : List Tok) :
    renderToks (t :: ts) ≠ [] := by
  show joinCh ',' (renderTok t :: ts.map renderTok) ≠ []
  cases hm : ts.map renderTok with
  | nil => simpa [joinCh] using renderTok_ne_nil t
  | cons q qs =>
      intro h
      simp only [joinCh, List.append_eq_nil] at h
      exact (List.cons_ne_nil _ _) h.2

theorem expand_renderToks (ts : List Tok) (hwf : ∀ t ∈ ts, wfTok t) :
    expand_spec (String.mk (renderToks ts)) =
      some ((ts.map tokVals).flatten) := by
  cases ts with
  | nil => rfl
  | cons t ts₂ =>
      have hne : (String.mk (renderToks (t :: ts₂))).data ≠ [] :=
        renderToks_ne_nil t ts₂
      rw [expand_spec, if_neg hne]
      show (match parseAllToks (splitOnCh ',' (renderToks (t :: ts₂))) with
        | some toks => some ((toks.map tokVals).flatten)
        | none => none) = _
      rw [show renderToks (t :: ts₂) =
          joinCh ',' ((t :: ts₂).map renderTok) from rfl]
      rw [splitOnCh_joinCh ',' ((t :: ts₂).map renderTok) (by simp)
        (by
          intro p hp c hc
          rw [List.mem_map] at hp
          obtain ⟨tok, _, rfl⟩ := hp
          exact renderTok_no_comma tok c hc)]
      rw [parseAllToks_renderToks _ hwf]

/-- C1: the codec round-trip.  For every finite set of non-negative
integers — given as an arbitrary list of its members — expanding the
string `Compress` produces, by parsing its comma-separated `a`, `a-b`
and `a-b:s` tokens per the spec's grammar, succeeds and yields exactly
the original set, whichever of the size 0–2, uniform-stride,
periodic-lane, modulo-grouped or greedy-fallback branches produced it. -/
theorem codec_round_trip (l : List Int) (hnn : ∀ x ∈ l, 0 ≤ x) :
    ∃ vals, expand_spec (compressList l) = some vals ∧
      ∀ x : Int, x ∈ vals ↔ x ∈ l := by
  obtain ⟨hvals, hwf⟩ := compressTokens_sound (sortDedup l)
    (sortDedup_chain l) (fun x hx => hnn x ((sortDedup_mem x l).mp hx))
  refine ⟨((compressTokens (sortDedup l)).map tokVals).flatten, ?_, ?_⟩
  · exact expand_renderToks _ hwf
  · intro x
    rw [hvals x, sortDedup_mem]

/-- C1 witness: the round-trip at the spec's periodic-lane example. -/
theorem codec_round_trip_witness :
    (∀ x ∈ ([5, 6, 15, 16, 25, 26] : List Int), 0 ≤ x) ∧
    ∃ vals, expand_spec (compressList [5, 6, 15, 16, 25, 26]) = some vals ∧
      ∀ x : Int, x ∈ vals ↔ x ∈ ([5, 6, 15, 16, 25, 26] : List Int) :=
  ⟨by decide, codec_round_trip [5, 6, 15, 16, 25, 26] (by decide)⟩

/-! ## Codec claim theorems: pinned outputs and malformed input -/

/-- C2: the pinned literal outputs of `Compress`, including the
decomposition of `{5,6,15,16,25,26}` into the two strided ranges
`5-25:10` and `6-26:10`. -/
theorem compress_pinned_outputs :
    compressList [] = "" ∧
    compressList [7] = "7" ∧
    compressList [3, 4] = "3-4" ∧
    compressList [3, 9] = "3,9" ∧
    compressList [0, 1, 2, 3, 4] = "0-4" ∧
    compressList [8, 18, 28, 38] = "8-38:10" ∧
    compressList [5, 6, 15, 16, 25, 26] = "5-25:10,6-26:10" := by
  refine ⟨rfl, ?_, ?_, ?_, ?_, ?_, ?_⟩ <;> decide

theorem parseAll_none {t : List Char} : ∀ {ts : List (List Char)},
    t ∈ ts → pyIntL t = none → parseAll ts = none := by
  intro ts
  induction ts with
  | nil => intro h; simp at h
  | cons u us ih =>
      intro hmem hfail
      rcases List.mem_cons.mp hmem with rfl | hmem₂
      · simp [parseAll, hfail]
      · cases hu : pyIntL u <;> simp [parseAll, hu, ih hmem₂ hfail]

/-- C10 counterexample: the claim as stated also covers blank tokens
(Python `int("")` raises ValueError), but `compress_indices` filters blank
tokens out before parsing, so `"0,,1"` — which contains the unparseable
empty token — is compressed to `"0-1"` rather than passed through. -/
theorem compress_malformed_claim_false :
    ¬ (∀ s : String, (∃ t ∈ splitOnCh ',' s.data, pyIntL t = none) →
        compress_indices s = s) := by
  intro h
  have h2 := h "0,,1" ⟨[], by decide, by decide⟩
  exact absurd h2 (by decide)

/-- C10 (amended): whenever the input contains a comma-separated token
with non-blank content that does not parse as an integer, the ValueError
fallback returns the input string unchanged — no error is signalled and no
compression is performed. -/
theorem compress_malformed_passthrough (s : String)
    (h : ∃ t ∈ splitOnCh ',' s.data, stripChars t ≠ [] ∧ pyIntL t = none) :
    compress_indices s = s := by
  obtain ⟨t, hmem, hblank, hfail⟩ := h
  have hne : s.data ≠ [] := by
    intro h0
    rw [h0] at hmem
    have ht : t = [] := by simpa [splitOnCh] using hmem
    exact hblank (by rw [ht]; rfl)
  rw [compress_indices, if_neg hne]
  have hfilter : t ∈ (splitOnCh ',' s.data).filter
      (fun t => !(stripChars t).isEmpty) := by
    refine List.mem_filter.mpr ⟨hmem, ?_⟩
    simp only [Bool.not_eq_true', List.isEmpty_eq_false]
    exact hblank
  rw [parseAll_none hfilter hfail]

/-- C10 witness: a non-blank unparseable token at a concrete input. -/
theorem compress_malformed_passthrough_witness :
    (∃ t ∈ splitOnCh ',' ("0,x,1" : String).data,
      stripChars t ≠ [] ∧ pyIntL t = none) ∧
    compress_indices "0,x,1" = "0,x,1" :=
  ⟨by decide, compress_malformed_passthrough "0,x,1" (by decide)⟩

/-! ## Claim theorems for the state machine -/

theorem mem_setLast (f : Round → Round) :
    ∀ {l : List Round} {r : Round}, r ∈ setLast f l →
      r ∈ l.dropLast ∨ ∃ r₀, l.getLast? = some r₀ ∧ r = f r₀ := by
  intro l
  induction l with
  | nil => intro r hr; simp [setLast] at hr
  | cons x tl ih =>
      intro r hr
      cases tl with
      | nil =>
          simp only [setLast, List.mem_singleton] at hr
          right
          exact ⟨x, rfl, hr⟩
      | cons y tl₂ =>
          simp only [setLast, List.mem_cons] at hr
          rcases hr with rfl | hr
          · left; simp [List.dropLast]
          · rcases ih hr with hmem | ⟨r₀, h₀, rfl⟩
            · left
              simp only [List.dropLast, List.mem_cons]
              right
              exact hmem
            · right
              refine ⟨r₀, ?_, rfl⟩
              rw [List.getLast?_cons_cons]
              exact h₀

/-- C5 counterexample: the claim quantifies over every chain state, but on
a chain whose history already holds a PENDING round that is not the last
round, `update_escalation` (with `next_level ≤ max_level`) leaves two
PENDING rounds, not exactly one. -/
theorem update_escalation_pending_claim_false :
    ¬ (∀ (cp : Checkpoint) (nl : Int) (nm ei : String) (rj : List Int)
        (hid cc ec oc tc fc : Int), nl ≤ cp.max_level →
        ((update_escalation cp nl nm ei rj hid cc ec oc tc fc).rounds.filter
          (fun r => r.status == "PENDING")).length = 1) := by
  intro h
  have h2 := h cpStale 1 "2G" "0-9" [5] 6 0 10 10 0 0 (by decide)
  have h3 : ((update_escalation cpStale 1 "2G" "0-9" [5] 6 0 10 10 0
      0).rounds.filter (fun r => r.status == "PENDING")).length = 2 := by decide
  omega

/-- C5 (amended): when `next_level ≤ max_level` and no round other than the
last is PENDING before the call, `update_escalation` leaves
`current_level ≤ max_level` and exactly one PENDING round — the newly
appended retry round at the end of the history. -/
theorem update_escalation_post (cp : Checkpoint) (nl : Int) (nm ei : String)
    (rj : List Int) (hid cc ec oc tc fc : Int)
    (hlvl : nl ≤ cp.max_level)
    (hpend : ∀ r ∈ cp.rounds.dropLast, r.status ≠ "PENDING") :
    (update_escalation cp nl nm ei rj hid cc ec oc tc fc).state.current_level ≤
      (update_escalation cp nl nm ei rj hid cc ec oc tc fc).max_level ∧
    ((update_escalation cp nl nm ei rj hid cc ec oc tc fc).rounds.filter
      (fun r => r.status == "PENDING")).length = 1 ∧
    ((update_escalation cp nl nm ei rj hid cc ec oc tc fc).rounds.getLast?).map
      Round.status = some "PENDING" := by
  refine ⟨hlvl, ?_, ?_⟩
  · show ((setLast _ cp.rounds ++ [_]).filter _).length = 1
    rw [List.filter_append]
    have hnil : (setLast (escalateRound cc oc tc fc ei) cp.rounds).filter
        (fun r => r.status == "PENDING") = [] := by
      rw [List.filter_eq_nil_iff]
      intro r hr
      rcases mem_setLast _ hr with hmem | ⟨r₀, _, rfl⟩
      · simpa using hpend r hmem
      · simp [escalateRound]
    rw [hnil]
    rfl
  · show ((setLast _ cp.rounds ++ [_]).getLast?).map Round.status = _
    rw [List.getLast?_concat]
    rfl

/-- C5 witness: the amended postcondition evaluated on a one-round chain. -/
theorem update_escalation_post_witness :
    ((1 : Int) ≤ cpRun.max_level ∧
      ∀ r ∈ cpRun.rounds.dropLast, r.status ≠ "PENDING") ∧
    ((update_escalation cpRun 1 "2G" "0-4" [7] 8 5 5 5 0 0).state.current_level ≤
      (update_escalation cpRun 1 "2G" "0-4" [7] 8 5 5 5 0 0).max_level ∧
    ((update_escalation cpRun 1 "2G" "0-4" [7] 8 5 5 5 0 0).rounds.filter
      (fun r => r.status == "PENDING")).length = 1 ∧
    ((update_escalation cpRun 1 "2G" "0-4" [7] 8 5 5 5 0 0).rounds.getLast?).map
      Round.status = some "PENDING") :=
  ⟨⟨by decide, by decide⟩,
    update_escalation_post cpRun 1 "2G" "0-4" [7] 8 5 5 5 0 0
      (by decide) (by decide)⟩

/-- C6 counterexample: a terminal (COMPLETED) chain state does not keep its
status across engine operations — `update_array_round` overwrites it with
RUNNING. -/
theorem terminal_status_claim_false :
    ¬ (∀ cp : Checkpoint,
        (cp.state.status = "COMPLETED" ∨
          cp.state.status = "FAILED_MAX_MEMORY" ∨
          cp.state.status = "FAILED_MAX_TIME") →
        ∀ (jids : List Int) (hid : Int) (spec : String) (lvl : Int)
          (mem : String),
          (update_array_round cp jids hid spec lvl mem).state.status =
            cp.state.status) := by
  intro h
  have h2 := h cpDone (Or.inl rfl) [9] 10 "0-4" 1 "2G"
  have h3 : (update_array_round cpDone [9] 10 "0-4" 1 "2G").state.status =
      "RUNNING" := rfl
  rw [h3] at h2
  exact absurd h2 (by decide)

/-- C6 (amended): the engine does not protect terminal statuses — every
mutating operation overwrites `status` unconditionally (RecordRound sets
RUNNING, Escalate sets ESCALATING, MarkCompleted sets COMPLETED, MarkFailed
sets FAILED_MAX_<reason>), whatever the prior status was; the
terminal-status invariant is the caller's obligation, not enforced by the
engine. -/
theorem engine_ops_overwrite_status (cp : Checkpoint) (jids : List Int)
    (hid : Int) (spec : String) (lvl : Int) (mem : String) (nl : Int)
    (nm ei : String) (rj : List Int) (hid₂ cc ec oc tc fc : Int)
    (jid c : Int) (fi reason : String) :
    (update_array_round cp jids hid spec lvl mem).state.status = "RUNNING" ∧
    (update_escalation cp nl nm ei rj hid₂ cc ec oc tc fc).state.status =
      "ESCALATING" ∧
    (mark_completed cp jid c).state.status = "COMPLETED" ∧
    (mark_failed cp fi reason).state.status = "FAILED_MAX_" ++ reason :=
  ⟨rfl, rfl, rfl, rfl⟩

/-- C7: `mark_completed` sets chain status COMPLETED, clears
`pending_indices`, keeps the round history the same length (no round added
or removed), and applies `completeRound` (status COMPLETED plus the given
count) exactly at the target index — the first round whose `job_id`
matches, or the last round when none matches — leaving every other round
untouched. -/
theorem mark_completed_postcondition (cp : Checkpoint) (jid c : Int) :
    (mark_completed cp jid c).state.status = "COMPLETED" ∧
    (mark_completed cp jid c).state.pending_indices = "" ∧
    (mark_completed cp jid c).rounds.length = cp.rounds.length ∧
    ∀ i : Nat,
      (mark_completed cp jid c).rounds[i]? =
        if mcTarget cp.rounds jid = some i
        then cp.rounds[i]?.map (completeRound c)
        else cp.rounds[i]? :=
  ⟨rfl, rfl, mcRounds_length jid c cp.rounds,
    fun i => mcRounds_getElem? jid c cp.rounds i⟩

/-- C8: `mark_completed` is idempotent — a second call with the same
`job_id` and count returns the same checkpoint (the unmodelled
`updated` timestamp aside), so the status stays COMPLETED and no round is
duplicated. -/
theorem mark_completed_idempotent (cp : Checkpoint) (jid c : Int) :
    mark_completed (mark_completed cp jid c) jid c = mark_completed cp jid c := by
  show Checkpoint.mk _ _ _ = Checkpoint.mk _ _ _
  rw [Checkpoint.mk.injEq]
  exact ⟨rfl, rfl, mcRounds_idem jid c cp.rounds⟩

/-- C9: on a failed checkpoint read, `modify_checkpoint` prints the warning
and performs no write — but, contrary to the claim, an exception does
escape to the caller: the generator returns without yielding, so the
`with` statement raises RuntimeError. -/
theorem modify_checkpoint_read_failure (e : String)
    (f : Checkpoint → Checkpoint) :
    (modify_checkpoint_run (.error e) f).warned = true ∧
    (modify_checkpoint_run (.error e) f).written = none ∧
    (modify_checkpoint_run (.error e) f).exn ≠ none :=
  ⟨rfl, rfl, by simp [modify_checkpoint_run]⟩

end MemEscalate
